import Mathlib

set_option linter.unusedSectionVars false
set_option linter.unusedVariables false

/-
  Verification of a Robin Hood hash map with insertion-order iteration
  (open addressing probe table over a doubly linked order sequence).

  The model is a shallow embedding of the C++ template HashMap<Key, Value, Hash>:
  * std::list<BucketItem> items_  ~  List (Entry K V), each entry carrying a
    unique identifier (modelling stable list-node identity / iterators),
    the key, the value, distance_to_ideal and id_in_table;
  * std::vector<ListIterator> table_  ~  List (Option Nat): a slot holds the
    identifier of the entry its stored iterator points to, and none models
    the empty marker items_.end();
  * the hasher is an explicit function h : K -> Nat;
  * MAX_LOAD_FACTOR is the C++ float literal 0.6f, whose exact value is
    5033165 / 8388608; the comparison
      static_cast<double>(size() + 1) / table_.size() < MAX_LOAD_FACTOR
    is modelled by the exact rational comparison
      8388608 * (size + 1) < 5033165 * tableLen,
    which agrees with the double-precision comparison for every table size
    below 2^31 (the rounding of the division cannot cross the representable
    threshold at such magnitudes);
  * unbounded while loops of the source are modelled with explicit fuel
    chosen so that fuel exhaustion happens exactly where the source would
    loop forever (which is unreachable from valid states).
-/

namespace HashMapModel

/-- One BucketItem of the C++ source: the (key, value) pair `data`, the
Robin Hood displacement `distance_to_ideal` (`dist`) and the probe-table
slot currently referencing the entry, `id_in_table` (`idx`).  The extra
field `id` models the stable identity of the std::list node. -/
structure Entry (K V : Type) where
  id : Nat
  key : K
  value : V
  dist : Nat
  idx : Nat
deriving DecidableEq

/-- The HashMap state: the order sequence `items_` and the probe table
`table_`; `nextId` is the supply of fresh list-node identities. -/
structure HM (K V : Type) where
  items : List (Entry K V)
  table : List (Option Nat)
  nextId : Nat
deriving DecidableEq

variable {K V : Type} [DecidableEq K]

/-- Reading probe-table slot j (out of range returns the empty marker). -/
def slotAt (table : List (Option Nat)) (j : Nat) : Option Nat :=
  table.getD j none

/-- Dereferencing the list iterator stored under identifier i. -/
def entryOf (items : List (Entry K V)) (i : Nat) : Option (Entry K V) :=
  items.find? (fun e => e.id == i)

/-- distance_to_ideal of the entry with identifier i (0 if dangling;
a dangling identifier is never dereferenced from valid states). -/
def distOf (items : List (Entry K V)) (i : Nat) : Nat :=
  ((entryOf items i).map (fun e => e.dist)).getD 0

/-- The comparison table_[hash]->data.first == key. -/
def keyMatches (items : List (Entry K V)) (i : Nat) (k : K) : Bool :=
  ((entryOf items i).map (fun e => e.key == k)).getD false

/-- In-place update  entry->id_in_table = j  through the iterator i. -/
def setIdx (items : List (Entry K V)) (i : Nat) (j : Nat) : List (Entry K V) :=
  items.map (fun e => if e.id == i then { e with idx := j } else e)

/-- In-place update  ++entry->distance_to_ideal. -/
def incDist (items : List (Entry K V)) (i : Nat) : List (Entry K V) :=
  items.map (fun e => if e.id == i then { e with dist := e.dist + 1 } else e)

/-- In-place update  --entry->distance_to_ideal. -/
def decDist (items : List (Entry K V)) (i : Nat) : List (Entry K V) :=
  items.map (fun e => if e.id == i then { e with dist := e.dist - 1 } else e)

/-- In-place update of the value behind the reference returned by
operator[] / find / at (writing through the mutable reference). -/
def setValue (m : HM K V) (k : K) (v : V) : HM K V :=
  { m with items := m.items.map (fun e => if e.key == k then { e with value := v } else e) }

/-- The trial-division loop of rehash_if_needed:
for (size_t div = 2; div * div <= n; ++div) if (n % div == 0) ... -/
def hasDivisorFrom (n : Nat) : Nat → Nat → Bool
  | _, 0 => false
  | d, fuel + 1 =>
    if d * d ≤ n then
      if n % d == 0 then true else hasDivisorFrom n (d + 1) fuel
    else false

/-- The primality test embedded in rehash_if_needed. -/
def isPrimeCpp (n : Nat) : Bool :=
  !(hasDivisorFrom n 2 n)

/-- for ( ; ; ++min_bucket_count) { ... if (prime) break; } -/
def findPrimeFrom : Nat → Nat → Nat
  | start, 0 => start
  | start, fuel + 1 => if isPrimeCpp start then start else findPrimeFrom (start + 1) fuel

/-- The new bucket count computed by rehash_if_needed, starting the search
at n = 2 * table_.size(); the fuel n + 2 is sufficient by Bertrand's
postulate, so it models the unbounded for loop exactly. -/
def findPrime (n : Nat) : Nat :=
  findPrimeFrom n (n + 2)

/-- The lookup loop of HashMap::find:
while (!(table_[hash] == items_.end() || table_[hash]->data.first == key))
  hash = (hash + 1) % table_.size();
Fuel table_.size() suffices whenever the table has an empty slot; on fuel
exhaustion (where the source loops forever) the model returns none. -/
def findLoop (items : List (Entry K V)) (table : List (Option Nat)) (k : K) :
    Nat → Nat → Option Nat
  | _, 0 => none
  | pos, fuel + 1 =>
    match slotAt table pos with
    | none => none
    | some i =>
      if keyMatches items i k then some i
      else findLoop items table k ((pos + 1) % table.length) fuel

/-- HashMap::find: returns the identifier of the found entry, or none for
the end-iterator sentinel. -/
def find (h : K → Nat) (m : HM K V) (k : K) : Option Nat :=
  findLoop m.items m.table k (h k % m.table.length) m.table.length

/-- The Robin Hood probe loop of HashMap::insert (lines 176-186):
while (table_[hash] != items_.end()) {
  if (table_[hash]->distance_to_ideal < list_iterator->distance_to_ideal) {
    std::swap(list_iterator, table_[hash]);
    table_[hash]->id_in_table = hash;
  }
  ++list_iterator->distance_to_ideal;
  hash = (hash + 1) % table_.size();
}
table_[hash] = list_iterator;  table_[hash]->id_in_table = hash; -/
def probeLoop (items : List (Entry K V)) (table : List (Option Nat)) (cur : Nat) :
    Nat → Nat → List (Entry K V) × List (Option Nat)
  | _, 0 => (items, table)
  | pos, fuel + 1 =>
    match slotAt table pos with
    | none => (setIdx items cur pos, table.set pos (some cur))
    | some occ =>
      if distOf items occ < distOf items cur then
        probeLoop (incDist (setIdx items cur pos) occ) (table.set pos (some cur))
          occ ((pos + 1) % table.length) fuel
      else
        probeLoop (incDist items cur) table cur ((pos + 1) % table.length) fuel

/-- Lines 173-185 of insert: emplace the new BucketItem {x, 0, 0} at the tail
of the order sequence, then run the Robin Hood probe from the ideal slot. -/
def emplaceProbe (h : K → Nat) (m : HM K V) (x : K × V) : HM K V :=
  let e : Entry K V := ⟨m.nextId, x.1, x.2, 0, 0⟩
  let r := probeLoop (m.items ++ [e]) m.table m.nextId
    (h x.1 % m.table.length) m.table.length
  ⟨r.1, r.2, m.nextId + 1⟩

/-- HashMap::insert with rehash_if_needed inlined (the source recursion
insert -> rehash_if_needed -> insert is paid for by the fuel; one unit of
fuel is consumed per nesting level, and refilling a grown table never
nests further, so the fuel chosen in insert below is never exhausted).
The no-op duplicate check (line 168) precedes the growth check (line 171);
the growth check models
  static_cast<double>(size() + 1) / table_.size() < MAX_LOAD_FACTOR
with MAX_LOAD_FACTOR = 0.6f = 5033165 / 8388608 exactly.  The rehash
branch reinserts the preserved order sequence, in order, through the
normal insert path into a fresh table of the next prime size. -/
def insertFuel (h : K → Nat) : Nat → HM K V → K × V → HM K V
  | 0, m, _ => m
  | fuel + 1, m, x =>
    if (find h m x.1).isSome then m
    else
      let m1 :=
        if 8388608 * (m.items.length + 1) < 5033165 * m.table.length then m
        else
          let newLen := findPrime (2 * m.table.length)
          m.items.foldl (fun acc e => insertFuel h fuel acc (e.key, e.value))
            ⟨[], List.replicate newLen none, m.nextId⟩
      emplaceProbe h m1 x

/-- HashMap::insert. -/
def insert (h : K → Nat) (m : HM K V) (x : K × V) : HM K V :=
  insertFuel h (m.items.length + 3) m x

/-- The backward-shift loop of HashMap::erase(iterator) (lines 203-210):
while (table_[next_hash] != items_.end() && table_[next_hash]->distance_to_ideal > 0) {
  std::swap(table_[hash], table_[next_hash]);
  table_[hash]->id_in_table = hash;  --table_[hash]->distance_to_ideal;
  hash = next_hash;  next_hash = (hash + 1) % table_.size();
} -/
def shiftLoop (items : List (Entry K V)) (table : List (Option Nat)) :
    Nat → Nat → List (Entry K V) × List (Option Nat)
  | _, 0 => (items, table)
  | hole, fuel + 1 =>
    match slotAt table ((hole + 1) % table.length) with
    | none => (items, table)
    | some j =>
      if 0 < distOf items j then
        shiftLoop (decDist (setIdx items j hole) j)
          ((table.set hole (some j)).set ((hole + 1) % table.length) none)
          ((hole + 1) % table.length) fuel
      else (items, table)

/-- HashMap::erase(iterator): read id_in_table, unlink the list node, empty
the slot, backward-shift. -/
def eraseById (m : HM K V) (i : Nat) : HM K V :=
  match entryOf m.items i with
  | none => m
  | some e =>
    let items0 := m.items.filter (fun e' => e'.id ≠ i)
    let table0 := m.table.set e.idx none
    let r := shiftLoop items0 table0 e.idx m.table.length
    ⟨r.1, r.2, m.nextId⟩

/-- HashMap::erase(Key): find, and erase through the iterator when present. -/
def eraseKey (h : K → Nat) (m : HM K V) (k : K) : HM K V :=
  match find h m k with
  | none => m
  | some i => eraseById m i

/-- HashMap::at (const): the value behind the found iterator, none models
throw std::out_of_range. -/
def atVal (h : K → Nat) (m : HM K V) (k : K) : Option V :=
  match find h m k with
  | none => none
  | some i => (entryOf m.items i).map (fun e => e.value)

/-- HashMap::operator[]: insert({key, Value{}}); return find(key)->second. -/
def getBracket (h : K → Nat) [Inhabited V] (m : HM K V) (k : K) : V × HM K V :=
  let m' := insert h m (k, default)
  ((atVal h m' k).getD default, m')

/-- HashMap::clear: erase every element, front to back, through the
erase(iterator) path; the table is not resized. -/
def clearFuel : Nat → HM K V → HM K V
  | 0, m => m
  | fuel + 1, m =>
    match m.items with
    | [] => m
    | e :: _ => clearFuel fuel (eraseById m e.id)

/-- HashMap::clear. -/
def clear (m : HM K V) : HM K V :=
  clearFuel m.items.length m

/-- The fresh empty map of the default constructor: table of
START_BUCKET_COUNT = 37 slots, all items_.end(). -/
def emptyHM : HM K V :=
  ⟨[], List.replicate 37 none, 0⟩

/-- Copy construction: fresh order sequence, fresh probe table sized as the
source's, then insert(node) for every node of the source in order. -/
def copyFrom (h : K → Nat) (src : HM K V) : HM K V :=
  src.items.foldl (fun acc e => insert h acc (e.key, e.value))
    ⟨[], List.replicate src.table.length none, 0⟩

/-- Copy assignment.  The boolean `same` models the address identity test
(&another == this); when it holds the operator returns *this unchanged,
otherwise it clears the destination, resizes its table to the source's
size and reinserts every source node in order. -/
def copyAssign (h : K → Nat) (dst src : HM K V) (same : Bool) : HM K V :=
  if same then dst
  else
    src.items.foldl (fun acc e => insert h acc (e.key, e.value))
      ⟨[], List.replicate src.table.length none, dst.nextId⟩

/-- Iteration from begin() to end(): the (key, value) pairs of the order
sequence, in order. -/
def toPairs (m : HM K V) : List (K × V) :=
  m.items.map (fun e => (e.key, e.value))

/-- The keys in iteration order. -/
def keysOf (m : HM K V) : List K :=
  m.items.map (fun e => e.key)

/-- size(). -/
def size (m : HM K V) : Nat :=
  m.items.length

/-- The displacement values of the occupied slots encountered when probing
forward (with wraparound) from position pos, up to the first empty slot. -/
def probeDists (items : List (Entry K V)) (table : List (Option Nat)) :
    Nat → Nat → List Nat
  | _, 0 => []
  | pos, fuel + 1 =>
    match slotAt table pos with
    | none => []
    | some i => distOf items i :: probeDists items table ((pos + 1) % table.length) fuel

/-- The states reachable from a fresh map through the public interface:
construction, insert, erase by key, erase by (valid) iterator, operator[]
(an insert of the default value followed by reads/writes through the
returned reference, the writes modelled by setValue), clear, copy
construction and copy assignment. -/
inductive Reachable (h : K → Nat) : HM K V → Prop
  | empty : Reachable h emptyHM
  | insert {m : HM K V} (x : K × V) : Reachable h m → Reachable h (insert h m x)
  | eraseKey {m : HM K V} (k : K) : Reachable h m → Reachable h (eraseKey h m k)
  | eraseIter {m : HM K V} (e : Entry K V) : Reachable h m → e ∈ m.items →
      Reachable h (eraseById m e.id)
  | setVal {m : HM K V} (k : K) (v : V) : Reachable h m → Reachable h (setValue m k v)
  | clear {m : HM K V} : Reachable h m → Reachable h (clear m)
  | copy {m : HM K V} : Reachable h m → Reachable h (copyFrom h m)
  | assign {m m' : HM K V} (b : Bool) : Reachable h m → Reachable h m' →
      Reachable h (copyAssign h m m' b)

/-- The identity hash used for the concrete Nat-keyed instances. -/
def idHash : Nat → Nat := fun n => n

/-- The table length after n insertions of pairwise distinct fresh keys
(the growth trajectory is independent of the keys themselves). -/
def lenAfter : Nat → Nat
  | 0 => 37
  | n + 1 =>
    if 8388608 * (n + 1) < 5033165 * lenAfter n then lenAfter n
    else findPrime (2 * lenAfter n)

/-- The map obtained by inserting (0,0), (1,0), ..., (n-1,0) with the
identity hash. -/
def insertRange : Nat → HM Nat Nat
  | 0 => emptyHM
  | n + 1 => insert idHash (insertRange n) (n, 0)

end HashMapModel

namespace HashMapModel

variable {K V : Type} [DecidableEq K]

theorem slotAt_set_self {table : List (Option Nat)} {j : Nat} (hj : j < table.length)
    (v : Option Nat) : slotAt (table.set j v) j = v := by
  simp [slotAt, List.getD_eq_getElem?_getD, List.getElem?_set_self hj]

theorem slotAt_set_ne {table : List (Option Nat)} {j j' : Nat} (h : j ≠ j')
    (v : Option Nat) : slotAt (table.set j v) j' = slotAt table j' := by
  simp [slotAt, List.getD_eq_getElem?_getD, List.getElem?_set_ne h]

theorem slotAt_replicate (n j : Nat) :
    slotAt (List.replicate n (none : Option Nat)) j = none := by
  simp only [slotAt, List.getD_eq_getElem?_getD, List.getElem?_replicate]
  split <;> rfl

theorem slotAt_none_of_ge {table : List (Option Nat)} {j : Nat}
    (hj : table.length ≤ j) : slotAt table j = none := by
  simp [slotAt, List.getD_eq_getElem?_getD, List.getElem?_eq_none hj]

theorem slotAt_lt_of_some {table : List (Option Nat)} {j : Nat} {i : Nat}
    (h : slotAt table j = some i) : j < table.length := by
  by_contra hge
  rw [slotAt_none_of_ge (Nat.le_of_not_lt hge)] at h
  exact Option.noConfusion h

theorem entryOf_map_of_id {items : List (Entry K V)} {f : Entry K V → Entry K V}
    (hf : ∀ e, (f e).id = e.id) (i : Nat) :
    entryOf (items.map f) i = (entryOf items i).map f := by
  induction items with
  | nil => rfl
  | cons e rest ih =>
    simp only [List.map_cons, entryOf, List.find?_cons, hf] at *
    cases h : (e.id == i)
    · simp only [h]; exact ih
    · simp only [h, Option.map_some']

theorem map_comp_eq_of_eq {α : Type} {f : Entry K V → Entry K V} {g : Entry K V → α}
    (hfg : ∀ e, g (f e) = g e) (items : List (Entry K V)) :
    (items.map f).map g = items.map g := by
  rw [List.map_map]
  exact List.map_congr_left (fun e _ => hfg e)

theorem setIdx_id (items : List (Entry K V)) (c j : Nat) :
    ∀ e : Entry K V, (if e.id == c then { e with idx := j } else e).id = e.id := by
  intro e; split <;> rfl

theorem incDist_id (items : List (Entry K V)) (c : Nat) :
    ∀ e : Entry K V, (if e.id == c then { e with dist := e.dist + 1 } else e).id = e.id := by
  intro e; split <;> rfl

theorem decDist_id (items : List (Entry K V)) (c : Nat) :
    ∀ e : Entry K V, (if e.id == c then { e with dist := e.dist - 1 } else e).id = e.id := by
  intro e; split <;> rfl

theorem entryOf_setIdx (items : List (Entry K V)) (c j i : Nat) :
    entryOf (setIdx items c j) i =
      (entryOf items i).map (fun e => if e.id == c then { e with idx := j } else e) :=
  entryOf_map_of_id (setIdx_id items c j) i

theorem entryOf_incDist (items : List (Entry K V)) (c i : Nat) :
    entryOf (incDist items c) i =
      (entryOf items i).map (fun e => if e.id == c then { e with dist := e.dist + 1 } else e) :=
  entryOf_map_of_id (incDist_id items c) i

theorem entryOf_decDist (items : List (Entry K V)) (c i : Nat) :
    entryOf (decDist items c) i =
      (entryOf items i).map (fun e => if e.id == c then { e with dist := e.dist - 1 } else e) :=
  entryOf_map_of_id (decDist_id items c) i

theorem distOf_setIdx (items : List (Entry K V)) (c j i : Nat) :
    distOf (setIdx items c j) i = distOf items i := by
  simp only [distOf, entryOf_setIdx]
  cases entryOf items i with
  | none => rfl
  | some e => simp only [Option.map_some', Option.getD_some]; split <;> rfl

end HashMapModel

namespace HashMapModel

variable {K V : Type} [DecidableEq K]

theorem distOf_of_entryOf {items : List (Entry K V)} {i : Nat} {e : Entry K V}
    (h : entryOf items i = some e) : distOf items i = e.dist := by
  simp [distOf, h]

theorem entryOf_id_eq {items : List (Entry K V)} {i : Nat} {e : Entry K V}
    (h : entryOf items i = some e) : e.id = i := by
  rw [entryOf] at h
  have := List.find?_some h
  simpa using this

theorem distOf_incDist_self {items : List (Entry K V)} {c : Nat} {e : Entry K V}
    (h : entryOf items c = some e) : distOf (incDist items c) c = e.dist + 1 := by
  have hc : e.id = c := entryOf_id_eq h
  simp [distOf, entryOf_incDist, h, hc]

theorem distOf_incDist_ne {items : List (Entry K V)} {c i : Nat} (hne : i ≠ c) :
    distOf (incDist items c) i = distOf items i := by
  simp only [distOf, entryOf_incDist]
  cases he : entryOf items i with
  | none => rfl
  | some e =>
    have hid : e.id = i := entryOf_id_eq he
    have : ¬(e.id = c) := by omega
    simp [this]

theorem entryOf_mem {items : List (Entry K V)} {i : Nat} {e : Entry K V}
    (h : entryOf items i = some e) : e ∈ items :=
  List.mem_of_find?_eq_some h

theorem eq_of_id_mem {items : List (Entry K V)}
    (hids : (items.map (fun e => e.id)).Nodup) {e₁ e₂ : Entry K V}
    (h1 : e₁ ∈ items) (h2 : e₂ ∈ items) (h : e₁.id = e₂.id) : e₁ = e₂ :=
  List.inj_on_of_nodup_map hids h1 h2 h

theorem eq_of_key_mem {items : List (Entry K V)}
    (hkeys : (items.map (fun e => e.key)).Nodup) {e₁ e₂ : Entry K V}
    (h1 : e₁ ∈ items) (h2 : e₂ ∈ items) (h : e₁.key = e₂.key) : e₁ = e₂ :=
  List.inj_on_of_nodup_map hkeys h1 h2 h

theorem entryOf_eq_some_of_mem {items : List (Entry K V)}
    (hids : (items.map (fun e => e.id)).Nodup) {e : Entry K V} (hm : e ∈ items) :
    entryOf items e.id = some e := by
  cases he : entryOf items e.id with
  | none =>
    rw [entryOf, List.find?_eq_none] at he
    exact absurd (by simp : (e.id == e.id) = true) (he e hm)
  | some e' =>
    have h1 : e' ∈ items := entryOf_mem he
    have h2 : e'.id = e.id := entryOf_id_eq he
    rw [eq_of_id_mem hids h1 hm h2]

theorem entryOf_append_left {items : List (Entry K V)} {tail : List (Entry K V)} {i : Nat}
    {e : Entry K V} (h : entryOf items i = some e) :
    entryOf (items ++ tail) i = some e := by
  simp only [entryOf, List.find?_append] at *
  rw [h]; rfl

theorem entryOf_append_right {items : List (Entry K V)} {tail : List (Entry K V)} {i : Nat}
    (h : entryOf items i = none) :
    entryOf (items ++ tail) i = entryOf tail i := by
  simp only [entryOf, List.find?_append] at *
  rw [h]; rfl

theorem entryOf_filter_out {items : List (Entry K V)} (eid : Nat) :
    entryOf (items.filter (fun e' => e'.id ≠ eid)) eid = none := by
  rw [entryOf, List.find?_eq_none]
  intro e he
  have := (List.mem_filter.mp he).2
  simp only [beq_iff_eq, decide_eq_true_eq] at this ⊢
  exact this

theorem entryOf_filter_ne {items : List (Entry K V)} {eid i : Nat} (h : i ≠ eid) :
    entryOf (items.filter (fun e' => e'.id ≠ eid)) i = entryOf items i := by
  induction items with
  | nil => rfl
  | cons e rest ih =>
    simp only [entryOf] at ih ⊢
    by_cases hke : e.id = eid
    · have hfe : (decide ¬e.id = eid) = false := by simp [hke]
      have hni : (e.id == i) = false := by simp [hke]; omega
      simp only [List.filter_cons, hfe, Bool.false_eq_true, if_false, ih,
        List.find?_cons, hni]
    · have hfe : (decide ¬e.id = eid) = true := by simp [hke]
      simp only [List.filter_cons, hfe, if_true]
      simp only [List.find?_cons]
      cases hei : (e.id == i)
      · simp only [hei]; exact ih
      · simp only [hei]

theorem mod_lt_of_pos {L : Nat} (hL : 0 < L) (x : Nat) : x % L < L :=
  Nat.mod_lt _ hL

theorem add_one_mod_mod (a L : Nat) : (a % L + 1) % L = (a + 1) % L := by
  conv_rhs => rw [Nat.add_mod]
  rcases Nat.eq_zero_or_pos L with h0 | hpos
  · subst h0; simp
  · rcases Nat.lt_or_ge 1 L with h1 | h1
    · rw [Nat.mod_eq_of_lt h1]
    · have : L = 1 := by omega
      subst this; simp

theorem mod_shift_succ (p t L : Nat) : ((p + t) % L + 1) % L = (p + (t + 1)) % L := by
  rw [add_one_mod_mod, Nat.add_assoc]

theorem left_of_succ {L : Nat} (hL : 0 < L) {p : Nat} (hp : p < L) :
    ((p + 1) % L + (L - 1)) % L = p := by
  rcases Nat.lt_or_ge (p + 1) L with h | h
  · rw [Nat.mod_eq_of_lt h]
    have h1 : p + 1 + (L - 1) = p + L := by omega
    rw [h1, Nat.add_mod_right]
    exact Nat.mod_eq_of_lt hp
  · have hpl : p + 1 = L := by omega
    rw [hpl, Nat.mod_self, Nat.zero_add]
    rw [Nat.mod_eq_of_lt (by omega : L - 1 < L)]
    omega

theorem succ_of_left {L : Nat} (hL : 0 < L) {p : Nat} (hp : p < L) :
    ((p + (L - 1)) % L + 1) % L = p := by
  rcases Nat.eq_zero_or_pos p with h0 | hpos
  · subst h0
    have h1 : (0 + (L - 1)) % L = L - 1 := by
      rw [Nat.zero_add]; exact Nat.mod_eq_of_lt (by omega)
    rw [h1]
    have h2 : L - 1 + 1 = L := by omega
    rw [h2, Nat.mod_self]
  · have h1 : p + (L - 1) = (p - 1) + L := by omega
    rw [h1, Nat.add_mod_right]
    rw [Nat.mod_eq_of_lt (by omega : p - 1 < L)]
    have h3 : p - 1 + 1 = p := by omega
    rw [h3]
    exact Nat.mod_eq_of_lt hp

theorem offset_inj {L : Nat} (hL : 0 < L) {p s t : Nat} (hs : s < L) (ht : t < L)
    (h : (p + s) % L = (p + t) % L) : s = t := by
  have hmod : s % L = t % L := by
    have h1 : (s + p) % L = (t + p) % L := by
      rw [Nat.add_comm s p, Nat.add_comm t p]; exact h
    have := Nat.ModEq.add_right_cancel' p h1
    exact this
  rw [Nat.mod_eq_of_lt hs, Nat.mod_eq_of_lt ht] at hmod
  exact hmod

theorem offset_ne_base {L : Nat} (hL : 0 < L) {p t : Nat} (hp : p < L)
    (ht0 : 0 < t) (ht : t < L) : (p + t) % L ≠ p := by
  intro h
  have : (p + t) % L = (p + 0) % L := by
    rw [h, Nat.add_zero, Nat.mod_eq_of_lt hp]
  exact absurd (offset_inj hL ht hL this) (by omega)

end HashMapModel

namespace HashMapModel

variable {K V : Type} [DecidableEq K]

/-- The placement invariant of one entry: its recorded slot is in range and
references it back, its displacement is below the table size, and its slot
is its ideal slot shifted by its displacement (modulo the table size). -/
def placedOK (h : K → Nat) (table : List (Option Nat)) (e : Entry K V) : Prop :=
  e.idx < table.length ∧ slotAt table e.idx = some e.id ∧
  e.dist < table.length ∧ e.idx = (h e.key % table.length + e.dist) % table.length

/-- The Robin Hood adjacency invariant: an occupied slot with positive
displacement is immediately preceded by an occupied slot whose displacement
is at most one smaller. -/
def adjOK (items : List (Entry K V)) (table : List (Option Nat)) : Prop :=
  ∀ j, j < table.length → ∀ i, slotAt table ((j + 1) % table.length) = some i →
    0 < distOf items i →
    ∃ i', slotAt table j = some i' ∧ distOf items i ≤ distOf items i' + 1

/-- The consistency invariant tying the order sequence to the probe table. -/
structure TInv (h : K → Nat) (items : List (Entry K V)) (table : List (Option Nat)) :
    Prop where
  lenPos : 0 < table.length
  idsNodup : (items.map (fun e => e.id)).Nodup
  keysNodup : (items.map (fun e => e.key)).Nodup
  complete : ∀ e ∈ items, placedOK h table e
  sound : ∀ j i, slotAt table j = some i → ∃ e ∈ items, e.id = i ∧ e.idx = j
  adj : adjOK items table

theorem occupChain {h : K → Nat} {items : List (Entry K V)} {table : List (Option Nat)}
    (hT : TInv h items table) {e : Entry K V} (he : e ∈ items) :
    ∀ n t, t + n = e.dist →
      ∃ i', slotAt table ((h e.key % table.length + t) % table.length) = some i' ∧
        t ≤ distOf items i' := by
  intro n
  induction n with
  | zero =>
    intro t ht
    rw [Nat.add_zero] at ht
    subst ht
    obtain ⟨hidx, hslot, hdist, hcong⟩ := hT.complete e he
    refine ⟨e.id, ?_, ?_⟩
    · rw [← hcong]; exact hslot
    · rw [distOf_of_entryOf (entryOf_eq_some_of_mem hT.idsNodup he)]
  | succ n ih =>
    intro t ht
    obtain ⟨i', hslot', hdist'⟩ := ih (t + 1) (by omega)
    have hpos : 0 < distOf items i' := by omega
    have hj : (h e.key % table.length + t) % table.length < table.length :=
      mod_lt_of_pos hT.lenPos _
    have hstep : (((h e.key % table.length + t) % table.length) + 1) % table.length =
        (h e.key % table.length + (t + 1)) % table.length := mod_shift_succ _ _ _
    obtain ⟨i'', hslot'', hle⟩ := hT.adj _ hj i' (by rw [hstep]; exact hslot') hpos
    exact ⟨i'', hslot'', by omega⟩

theorem findLoop_complete_aux {h : K → Nat} {items : List (Entry K V)}
    {table : List (Option Nat)} (hT : TInv h items table)
    {e : Entry K V} (he : e ∈ items) {k : K} (hk : e.key = k) :
    ∀ n t fuel, t + n = e.dist → n < fuel →
      findLoop items table k ((h k % table.length + t) % table.length) fuel = some e.id := by
  intro n
  induction n with
  | zero =>
    intro t fuel ht hfuel
    rw [Nat.add_zero] at ht; subst ht
    obtain ⟨fuel, rfl⟩ : ∃ f, fuel = f + 1 := ⟨fuel - 1, by omega⟩
    obtain ⟨hidx, hslot, hdist, hcong⟩ := hT.complete e he
    have hpos : (h k % table.length + e.dist) % table.length = e.idx := by
      rw [hcong, hk]
    rw [findLoop, hpos, hslot]
    have hkm : keyMatches items e.id k = true := by
      rw [keyMatches, entryOf_eq_some_of_mem hT.idsNodup he]
      simp [hk]
    simp [hkm]
  | succ n ih =>
    intro t fuel ht hfuel
    obtain ⟨fuel, rfl⟩ : ∃ f, fuel = f + 1 := ⟨fuel - 1, by omega⟩
    obtain ⟨i', hslot', hdist'⟩ := occupChain hT he (n + 1) t (by omega)
    rw [hk] at hslot'
    obtain ⟨e', he', hid', hidx'⟩ := hT.sound _ _ hslot'
    have hkm : keyMatches items i' k = false := by
      rw [keyMatches, ← hid', entryOf_eq_some_of_mem hT.idsNodup he']
      simp only [Option.map_some', Option.getD_some, beq_eq_false_iff_ne, ne_eq]
      intro hkey
      have : e' = e := eq_of_key_mem hT.keysNodup he' he (by rw [hkey, hk])
      subst this
      obtain ⟨hidx, hslot, hdist, hcong⟩ := hT.complete e' he'
      rw [hcong, hk] at hidx'
      have ht' : t < e'.dist := by omega
      have htL : t < table.length := by omega
      have heq := offset_inj hT.lenPos hdist htL hidx'
      omega
    rw [findLoop, hslot']
    simp only [hkm, Bool.false_eq_true, if_false]
    have hstep : (((h k % table.length + t) % table.length) + 1) % table.length =
        (h k % table.length + (t + 1)) % table.length := mod_shift_succ _ _ _
    rw [hstep]
    exact ih (t + 1) fuel (by omega) (by omega)

theorem find_eq_some {h : K → Nat} {m : HM K V} (hT : TInv h m.items m.table)
    {e : Entry K V} (he : e ∈ m.items) : find h m e.key = some e.id := by
  obtain ⟨hidx, hslot, hdist, hcong⟩ := hT.complete e he
  have h0 : (h e.key % m.table.length + 0) % m.table.length = h e.key % m.table.length := by
    rw [Nat.add_zero]
    exact Nat.mod_mod_of_dvd _ (dvd_refl _)
  rw [find, ← h0]
  exact findLoop_complete_aux hT he rfl e.dist 0 m.table.length (by omega) hdist

theorem findLoop_absent {items : List (Entry K V)} {table : List (Option Nat)} {k : K}
    (habs : ∀ e ∈ items, e.key ≠ k) :
    ∀ fuel pos, findLoop items table k pos fuel = none := by
  intro fuel
  induction fuel with
  | zero => intro pos; rfl
  | succ fuel ih =>
    intro pos
    rw [findLoop]
    cases hs : slotAt table pos with
    | none => rfl
    | some i =>
      have hkm : keyMatches items i k = false := by
        rw [keyMatches]
        cases he : entryOf items i with
        | none => rfl
        | some e =>
          simp only [Option.map_some', Option.getD_some, beq_eq_false_iff_ne, ne_eq]
          exact habs e (entryOf_mem he)
      simp only [hkm, Bool.false_eq_true, if_false]
      exact ih _

theorem find_eq_none {h : K → Nat} {m : HM K V} {k : K}
    (habs : ∀ e ∈ m.items, e.key ≠ k) : find h m k = none :=
  findLoop_absent habs _ _

theorem findLoop_some_inv {items : List (Entry K V)} {table : List (Option Nat)} {k : K} :
    ∀ fuel pos i, findLoop items table k pos fuel = some i →
      ∃ e ∈ items, e.id = i ∧ e.key = k := by
  intro fuel
  induction fuel with
  | zero => intro pos i h; exact Option.noConfusion h
  | succ fuel ih =>
    intro pos i h
    rw [findLoop] at h
    cases hs : slotAt table pos with
    | none => rw [hs] at h; exact Option.noConfusion h
    | some i' =>
      rw [hs] at h
      cases hkm : keyMatches items i' k with
      | false =>
        simp only [hkm, Bool.false_eq_true, if_false] at h
        exact ih _ _ h
      | true =>
        simp only [hkm, if_true] at h
        rw [keyMatches] at hkm
        cases he : entryOf items i' with
        | none => rw [he] at hkm; exact Bool.noConfusion hkm
        | some e =>
          rw [he] at hkm
          simp only [Option.map_some', Option.getD_some, beq_iff_eq] at hkm
          refine ⟨e, entryOf_mem he, ?_, hkm⟩
          rw [entryOf_id_eq he]
          exact Option.some.inj h

theorem find_some_inv {h : K → Nat} {m : HM K V} {k : K} {i : Nat}
    (hf : find h m k = some i) : ∃ e ∈ m.items, e.id = i ∧ e.key = k :=
  findLoop_some_inv _ _ _ hf

end HashMapModel

namespace HashMapModel

variable {K V : Type} [DecidableEq K]

theorem entryOf_setIdx_ne {items : List (Entry K V)} {c j i : Nat} (hne : i ≠ c) :
    entryOf (setIdx items c j) i = entryOf items i := by
  rw [entryOf_setIdx]
  cases he : entryOf items i with
  | none => rfl
  | some e =>
    have hid : e.id = i := entryOf_id_eq he
    have : ¬(e.id = c) := by omega
    simp [this]

theorem entryOf_setIdx_self {items : List (Entry K V)} {c j : Nat} {e : Entry K V}
    (h : entryOf items c = some e) :
    entryOf (setIdx items c j) c = some { e with idx := j } := by
  have hid : e.id = c := entryOf_id_eq h
  rw [entryOf_setIdx, h]
  simp [hid]

theorem entryOf_incDist_ne {items : List (Entry K V)} {c i : Nat} (hne : i ≠ c) :
    entryOf (incDist items c) i = entryOf items i := by
  rw [entryOf_incDist]
  cases he : entryOf items i with
  | none => rfl
  | some e =>
    have hid : e.id = i := entryOf_id_eq he
    have : ¬(e.id = c) := by omega
    simp [this]

theorem entryOf_incDist_self {items : List (Entry K V)} {c : Nat} {e : Entry K V}
    (h : entryOf items c = some e) :
    entryOf (incDist items c) c = some { e with dist := e.dist + 1 } := by
  have hid : e.id = c := entryOf_id_eq h
  rw [entryOf_incDist, h]
  simp [hid]

theorem entryOf_decDist_ne {items : List (Entry K V)} {c i : Nat} (hne : i ≠ c) :
    entryOf (decDist items c) i = entryOf items i := by
  rw [entryOf_decDist]
  cases he : entryOf items i with
  | none => rfl
  | some e =>
    have hid : e.id = i := entryOf_id_eq he
    have : ¬(e.id = c) := by omega
    simp [this]

theorem entryOf_decDist_self {items : List (Entry K V)} {c : Nat} {e : Entry K V}
    (h : entryOf items c = some e) :
    entryOf (decDist items c) c = some { e with dist := e.dist - 1 } := by
  have hid : e.id = c := entryOf_id_eq h
  rw [entryOf_decDist, h]
  simp [hid]

theorem distOf_decDist_ne {items : List (Entry K V)} {c i : Nat} (hne : i ≠ c) :
    distOf (decDist items c) i = distOf items i := by
  rw [distOf, entryOf_decDist_ne hne, distOf]

theorem distOf_setIdx_any (items : List (Entry K V)) (c j i : Nat) :
    distOf (setIdx items c j) i = distOf items i :=
  distOf_setIdx items c j i

theorem adjOK_congr {items items' : List (Entry K V)} {table : List (Option Nat)}
    (hd : ∀ j i, slotAt table j = some i → distOf items' i = distOf items i)
    (ha : adjOK items table) : adjOK items' table := by
  intro j hj i hslot hpos
  have hj1 := hd _ _ hslot
  rw [hj1] at hpos
  obtain ⟨i', hslot', hle⟩ := ha j hj i hslot hpos
  exact ⟨i', hslot', by rw [hj1, hd _ _ hslot']; exact hle⟩

end HashMapModel

namespace HashMapModel

variable {K V : Type} [DecidableEq K]

theorem setIdx_map_id (items : List (Entry K V)) (c j : Nat) :
    (setIdx items c j).map (fun e => e.id) = items.map (fun e => e.id) := by
  simp only [setIdx]
  exact map_comp_eq_of_eq (fun e => by split <;> rfl) items

theorem setIdx_map_key (items : List (Entry K V)) (c j : Nat) :
    (setIdx items c j).map (fun e => e.key) = items.map (fun e => e.key) := by
  simp only [setIdx]
  exact map_comp_eq_of_eq (fun e => by split <;> rfl) items

theorem setIdx_map_sig (items : List (Entry K V)) (c j : Nat) :
    (setIdx items c j).map (fun e => (e.id, e.key, e.value)) =
      items.map (fun e => (e.id, e.key, e.value)) := by
  simp only [setIdx]
  exact map_comp_eq_of_eq (fun e => by split <;> rfl) items

theorem incDist_map_id (items : List (Entry K V)) (c : Nat) :
    (incDist items c).map (fun e => e.id) = items.map (fun e => e.id) := by
  simp only [incDist]
  exact map_comp_eq_of_eq (fun e => by split <;> rfl) items

theorem incDist_map_key (items : List (Entry K V)) (c : Nat) :
    (incDist items c).map (fun e => e.key) = items.map (fun e => e.key) := by
  simp only [incDist]
  exact map_comp_eq_of_eq (fun e => by split <;> rfl) items

theorem incDist_map_sig (items : List (Entry K V)) (c : Nat) :
    (incDist items c).map (fun e => (e.id, e.key, e.value)) =
      items.map (fun e => (e.id, e.key, e.value)) := by
  simp only [incDist]
  exact map_comp_eq_of_eq (fun e => by split <;> rfl) items

theorem decDist_map_id (items : List (Entry K V)) (c : Nat) :
    (decDist items c).map (fun e => e.id) = items.map (fun e => e.id) := by
  simp only [decDist]
  exact map_comp_eq_of_eq (fun e => by split <;> rfl) items

theorem decDist_map_key (items : List (Entry K V)) (c : Nat) :
    (decDist items c).map (fun e => e.key) = items.map (fun e => e.key) := by
  simp only [decDist]
  exact map_comp_eq_of_eq (fun e => by split <;> rfl) items

theorem decDist_map_sig (items : List (Entry K V)) (c : Nat) :
    (decDist items c).map (fun e => (e.id, e.key, e.value)) =
      items.map (fun e => (e.id, e.key, e.value)) := by
  simp only [decDist]
  exact map_comp_eq_of_eq (fun e => by split <;> rfl) items

/-- The loop invariant of the Robin Hood probe loop: the in-hand entry cur
(the local variable list_iterator of the source) sits in the order sequence,
is referenced by no slot, every other entry is correctly placed, the probe
table is sound and Robin Hood adjacent, the current position is the in-hand
entry's ideal slot shifted by its accumulated displacement, and (unless the
in-hand displacement is zero) the slot just left behind carries displacement
at least the in-hand displacement minus one. -/
structure PLInv (h : K → Nat) (items : List (Entry K V)) (table : List (Option Nat))
    (cur pos : Nat) (ec : Entry K V) : Prop where
  hec : entryOf items cur = some ec
  idsN : (items.map (fun e => e.id)).Nodup
  keysN : (items.map (fun e => e.key)).Nodup
  noref : ∀ j, slotAt table j ≠ some cur
  placed : ∀ e ∈ items, e.id ≠ cur → placedOK h table e
  sound : ∀ j i, slotAt table j = some i → ∃ e ∈ items, e.id = i ∧ e.idx = j
  adj : adjOK items table
  posLt : pos < table.length
  posC : pos = (h ec.key % table.length + ec.dist) % table.length
  left : ec.dist = 0 ∨ ∃ i', slotAt table ((pos + (table.length - 1)) % table.length) = some i' ∧
    ec.dist ≤ distOf items i' + 1

theorem probePlace {h : K → Nat} {items : List (Entry K V)} {table : List (Option Nat)}
    {cur pos : Nat} {ec : Entry K V} (hP : PLInv h items table cur pos ec)
    (hslot : slotAt table pos = none) (hecd : ec.dist < table.length) :
    TInv h (setIdx items cur pos) (table.set pos (some cur)) := by
  have hLpos : 0 < table.length := Nat.lt_of_le_of_lt (Nat.zero_le _) hP.posLt
  have hcurid : ec.id = cur := entryOf_id_eq hP.hec
  have hcurmem : ec ∈ items := entryOf_mem hP.hec
  refine ⟨?_, ?_, ?_, ?_, ?_, ?_⟩
  · rw [List.length_set]; exact hLpos
  · rw [setIdx_map_id]; exact hP.idsN
  · rw [setIdx_map_key]; exact hP.keysN
  · intro e' he'
    simp only [setIdx, List.mem_map] at he'
    obtain ⟨e, hemem, rfl⟩ := he'
    by_cases hid : e.id = cur
    · have hee : e = ec := eq_of_id_mem hP.idsN hemem hcurmem (by rw [hid, hcurid])
      subst hee
      simp only [hid, beq_self_eq_true, if_pos]
      refine ⟨?_, ?_, ?_, ?_⟩
      · rw [List.length_set]; exact hP.posLt
      · rw [slotAt_set_self hP.posLt]
      · rw [List.length_set]; exact hecd
      · rw [List.length_set]; exact hP.posC
    · have hbeq : (e.id == cur) = false := by simp [hid]
      simp only [hbeq, Bool.false_eq_true, if_false]
      obtain ⟨hidx, hsl, hdl, hcong⟩ := hP.placed e hemem hid
      have hne : e.idx ≠ pos := by
        intro hcontra
        rw [hcontra, hslot] at hsl
        exact Option.noConfusion hsl
      refine ⟨?_, ?_, ?_, ?_⟩
      · rw [List.length_set]; exact hidx
      · rw [slotAt_set_ne (fun hc => hne hc.symm)]; exact hsl
      · rw [List.length_set]; exact hdl
      · rw [List.length_set]; exact hcong
  · intro j i hji
    by_cases hj : j = pos
    · rw [hj, slotAt_set_self hP.posLt] at hji
      have hi : i = cur := (Option.some.inj hji).symm
      refine ⟨{ ec with idx := pos }, ?_, ?_, ?_⟩
      · simp only [setIdx, List.mem_map]
        exact ⟨ec, hcurmem, by simp [hcurid]⟩
      · show ec.id = i
        omega
      · show pos = j
        omega
    · rw [slotAt_set_ne (fun hc => hj hc.symm)] at hji
      obtain ⟨e, hemem, hied, hidx⟩ := hP.sound j i hji
      have hine : i ≠ cur := by
        intro hc
        rw [hc] at hji
        exact hP.noref j hji
      have hbeq : (e.id == cur) = false := by
        simp only [beq_eq_false_iff_ne, ne_eq]
        omega
      refine ⟨e, ?_, hied, hidx⟩
      simp only [setIdx, List.mem_map]
      exact ⟨e, hemem, by simp [hbeq]⟩
  · intro j hj i hjsucc hpos0
    rw [List.length_set] at hj
    rw [List.length_set] at hjsucc
    rw [distOf_setIdx] at hpos0
    by_cases hsp : (j + 1) % table.length = pos
    · rw [hsp, slotAt_set_self hP.posLt] at hjsucc
      have hi : i = cur := (Option.some.inj hjsucc).symm
      have hdcur : distOf items i = ec.dist := by
        rw [hi]; exact distOf_of_entryOf hP.hec
      rw [hdcur] at hpos0
      rcases hP.left with h0 | ⟨i', hi's, hi'le⟩
      · omega
      · have hjq : j = (pos + (table.length - 1)) % table.length := by
          have hls := left_of_succ hLpos hj
          rw [hsp] at hls
          omega
        have hjnp : j ≠ pos := by
          intro hc
          rw [← hjq, hc, hslot] at hi's
          exact Option.noConfusion hi's
        refine ⟨i', ?_, ?_⟩
        · rw [slotAt_set_ne (fun hc => hjnp hc.symm), hjq]
          exact hi's
        · rw [distOf_setIdx, distOf_setIdx, hdcur]
          exact hi'le
    · rw [slotAt_set_ne (fun hc => hsp hc.symm)] at hjsucc
      obtain ⟨i', hi's, hile⟩ := hP.adj j hj i hjsucc hpos0
      have hjnp : j ≠ pos := by
        intro hc
        rw [hc, hslot] at hi's
        exact Option.noConfusion hi's
      refine ⟨i', ?_, ?_⟩
      · rw [slotAt_set_ne (fun hc => hjnp hc.symm)]
        exact hi's
      · rw [distOf_setIdx, distOf_setIdx]
        exact hile

end HashMapModel

namespace HashMapModel

variable {K V : Type} [DecidableEq K]

theorem probeSkipStep {h : K → Nat} {items : List (Entry K V)} {table : List (Option Nat)}
    {cur pos : Nat} {ec : Entry K V} {occ : Nat}
    (hP : PLInv h items table cur pos ec)
    (hslot : slotAt table pos = some occ)
    (hnoswap : ¬ distOf items occ < distOf items cur) :
    PLInv h (incDist items cur) table cur ((pos + 1) % table.length)
      { ec with dist := ec.dist + 1 } := by
  have hLpos : 0 < table.length := Nat.lt_of_le_of_lt (Nat.zero_le _) hP.posLt
  have hcurid : ec.id = cur := entryOf_id_eq hP.hec
  have hoccne : occ ≠ cur := by
    intro hc
    rw [hc] at hslot
    exact hP.noref pos hslot
  refine ⟨?_, ?_, ?_, ?_, ?_, ?_, ?_, ?_, ?_, ?_⟩
  · exact entryOf_incDist_self hP.hec
  · rw [incDist_map_id]; exact hP.idsN
  · rw [incDist_map_key]; exact hP.keysN
  · exact hP.noref
  · intro e' he' hne'
    simp only [incDist, List.mem_map] at he'
    obtain ⟨e, hemem, rfl⟩ := he'
    by_cases h1 : e.id = cur
    · have : (if e.id == cur then { e with dist := e.dist + 1 } else e).id = cur := by
        simp [h1]
      exact absurd this hne'
    · have hb1 : (e.id == cur) = false := by
        simp only [beq_eq_false_iff_ne, ne_eq]; exact h1
      simp only [hb1, Bool.false_eq_true, if_false]
      exact hP.placed e hemem h1
  · intro j i hji
    obtain ⟨e, hemem, hied, hidx⟩ := hP.sound j i hji
    have hine : i ≠ cur := by
      intro hc
      rw [hc] at hji
      exact hP.noref j hji
    have hb1 : (e.id == cur) = false := by
      simp only [beq_eq_false_iff_ne, ne_eq]; omega
    refine ⟨e, ?_, hied, hidx⟩
    simp only [incDist, List.mem_map]
    exact ⟨e, hemem, by simp [hb1]⟩
  · refine adjOK_congr ?_ hP.adj
    intro j i hji
    have hine : i ≠ cur := by
      intro hc
      rw [hc] at hji
      exact hP.noref j hji
    exact distOf_incDist_ne hine
  · exact mod_lt_of_pos hLpos _
  · show (pos + 1) % table.length =
      (h ec.key % table.length + (ec.dist + 1)) % table.length
    rw [hP.posC]
    exact mod_shift_succ _ _ _
  · right
    refine ⟨occ, ?_, ?_⟩
    · rw [left_of_succ hLpos hP.posLt]
      exact hslot
    · rw [distOf_incDist_ne hoccne]
      have hdcur : distOf items cur = ec.dist := distOf_of_entryOf hP.hec
      rw [hdcur] at hnoswap
      show ec.dist + 1 ≤ distOf items occ + 1
      omega

theorem probeSwapStep {h : K → Nat} {items : List (Entry K V)} {table : List (Option Nat)}
    {cur pos : Nat} {ec : Entry K V} {occ : Nat}
    (hP : PLInv h items table cur pos ec)
    (hslot : slotAt table pos = some occ)
    (hL2 : 1 < table.length)
    (hecd : ec.dist < table.length)
    (hswap : distOf items occ < distOf items cur) :
    ∃ ec', PLInv h (incDist (setIdx items cur pos) occ) (table.set pos (some cur))
      occ ((pos + 1) % table.length) ec' ∧ ec'.dist ≤ ec.dist := by
  have hLpos : 0 < table.length := Nat.lt_of_le_of_lt (Nat.zero_le _) hP.posLt
  have hcurid : ec.id = cur := entryOf_id_eq hP.hec
  have hcurmem : ec ∈ items := entryOf_mem hP.hec
  have hoccne : occ ≠ cur := by
    intro hc
    rw [hc] at hslot
    exact hP.noref pos hslot
  obtain ⟨eo, heomem, heoid, heoidx⟩ := hP.sound pos occ hslot
  have heo : entryOf items occ = some eo := by
    rw [← heoid]
    exact entryOf_eq_some_of_mem hP.idsN heomem
  have hdocc : distOf items occ = eo.dist := distOf_of_entryOf heo
  have hdcur : distOf items cur = ec.dist := distOf_of_entryOf hP.hec
  have hswd : eo.dist < ec.dist := by
    rw [hdocc, hdcur] at hswap
    exact hswap
  obtain ⟨heoidxlt, heoslot, heodlt, heocong⟩ :=
    hP.placed eo heomem (by omega : eo.id ≠ cur)
  -- uniqueness of the slot referencing occ
  have huniq : ∀ j' i', j' ≠ pos → slotAt table j' = some i' → i' ≠ occ := by
    intro j' i' hj' hs' hc
    obtain ⟨e, hemem, hied, hidx⟩ := hP.sound j' i' hs'
    have : e = eo := eq_of_id_mem hP.idsN hemem heomem (by omega)
    rw [this] at hidx
    omega
  -- the updated distances
  have hd2 : ∀ i0, distOf (incDist (setIdx items cur pos) occ) i0 =
      if i0 = occ then eo.dist + 1 else distOf items i0 := by
    intro i0
    by_cases h0 : i0 = occ
    · rw [h0, if_pos rfl]
      have hset : entryOf (setIdx items cur pos) occ = some eo := by
        rw [entryOf_setIdx_ne hoccne]
        exact heo
      exact distOf_incDist_self hset
    · rw [if_neg h0, distOf_incDist_ne h0, distOf_setIdx]
  refine ⟨{ eo with dist := eo.dist + 1 }, ⟨?_, ?_, ?_, ?_, ?_, ?_, ?_, ?_, ?_, ?_⟩,
    by show eo.dist + 1 ≤ ec.dist; exact hswd⟩
  · have hset : entryOf (setIdx items cur pos) occ = some eo := by
      rw [entryOf_setIdx_ne hoccne]
      exact heo
    exact entryOf_incDist_self hset
  · rw [incDist_map_id, setIdx_map_id]; exact hP.idsN
  · rw [incDist_map_key, setIdx_map_key]; exact hP.keysN
  · intro j hc
    by_cases hj : j = pos
    · rw [hj, slotAt_set_self hP.posLt] at hc
      exact hoccne (Option.some.inj hc).symm
    · rw [slotAt_set_ne (fun h' => hj h'.symm)] at hc
      exact huniq j occ hj hc rfl
  · intro e' he' hne'
    simp only [incDist, setIdx, List.mem_map] at he'
    obtain ⟨b, ⟨a, hamem, rfl⟩, rfl⟩ := he'
    by_cases h1 : a.id = cur
    · have hae : a = ec := eq_of_id_mem hP.idsN hamem hcurmem (by omega)
      subst hae
      have hb1 : (a.id == cur) = true := by simpa using h1
      have hbne : (({ a with idx := pos } : Entry K V).id == occ) = false := by
        simp only [beq_eq_false_iff_ne, ne_eq]
        show ¬ a.id = occ
        omega
      simp only [hb1, if_true, hbne, Bool.false_eq_true, if_false]
      refine ⟨?_, ?_, ?_, ?_⟩
      · rw [List.length_set]; exact hP.posLt
      · show slotAt (table.set pos (some cur)) pos = some a.id
        rw [slotAt_set_self hP.posLt, h1]
      · rw [List.length_set]; exact hecd
      · rw [List.length_set]; exact hP.posC
    · have hb1 : (a.id == cur) = false := by
        simp only [beq_eq_false_iff_ne, ne_eq]; exact h1
      simp only [hb1, Bool.false_eq_true, if_false] at hne' ⊢
      by_cases h2 : a.id = occ
      · have hb2 : (a.id == occ) = true := by simpa using h2
        simp only [hb2, if_true] at hne' ⊢
        exact absurd h2 hne'
      · have hb2 : (a.id == occ) = false := by
          simp only [beq_eq_false_iff_ne, ne_eq]; exact h2
        simp only [hb2, Bool.false_eq_true, if_false]
        obtain ⟨hidx, hsl, hdl, hcong⟩ := hP.placed a hamem h1
        have hne : a.idx ≠ pos := by
          intro hcontra
          rw [hcontra, hslot] at hsl
          exact h2 (Option.some.inj hsl).symm
        refine ⟨?_, ?_, ?_, ?_⟩
        · rw [List.length_set]; exact hidx
        · rw [slotAt_set_ne (fun hc => hne hc.symm)]; exact hsl
        · rw [List.length_set]; exact hdl
        · rw [List.length_set]; exact hcong
  · intro j i hji
    by_cases hj : j = pos
    · rw [hj, slotAt_set_self hP.posLt] at hji
      have hi : i = cur := (Option.some.inj hji).symm
      refine ⟨{ ec with idx := pos }, ?_, ?_, ?_⟩
      · simp only [incDist, setIdx, List.mem_map]
        refine ⟨{ ec with idx := pos }, ⟨ec, hcurmem, by simp [hcurid]⟩, ?_⟩
        have : (({ ec with idx := pos } : Entry K V).id == occ) = false := by
          simp only [beq_eq_false_iff_ne, ne_eq]
          show ¬ ec.id = occ
          omega
        simp [this]
      · show ec.id = i
        omega
      · show pos = j
        omega
    · rw [slotAt_set_ne (fun hc => hj hc.symm)] at hji
      obtain ⟨e, hemem, hied, hidx⟩ := hP.sound j i hji
      have hine : i ≠ cur := by
        intro hc
        rw [hc] at hji
        exact hP.noref j hji
      have hineo : i ≠ occ := huniq j i hj hji
      have hb1 : (e.id == cur) = false := by
        simp only [beq_eq_false_iff_ne, ne_eq]; omega
      have hb2 : (e.id == occ) = false := by
        simp only [beq_eq_false_iff_ne, ne_eq]; omega
      refine ⟨e, ?_, hied, hidx⟩
      simp only [incDist, setIdx, List.mem_map]
      exact ⟨e, ⟨e, hemem, by simp [hb1]⟩, by simp [hb2]⟩
  · intro j hj i hjsucc hpos0
    rw [List.length_set] at hj hjsucc
    rw [hd2] at hpos0
    by_cases hsp : (j + 1) % table.length = pos
    · rw [hsp, slotAt_set_self hP.posLt] at hjsucc
      have hi : i = cur := (Option.some.inj hjsucc).symm
      have hio : ¬ (i = occ) := by omega
      rw [if_neg hio, hi, hdcur] at hpos0
      rcases hP.left with h0 | ⟨i', hi's, hi'le⟩
      · omega
      · have hjq : j = (pos + (table.length - 1)) % table.length := by
          have hls := left_of_succ hLpos hj
          rw [hsp] at hls
          omega
        have hjnp : j ≠ pos := by
          intro hc
          rw [hc] at hsp
          exact offset_ne_base hLpos hP.posLt (by omega) hL2 hsp
        have hi'o : i' ≠ occ := by
          refine huniq j i' hjnp ?_
          rw [hjq]; exact hi's
        refine ⟨i', ?_, ?_⟩
        · rw [slotAt_set_ne (fun hc => hjnp hc.symm), hjq]
          exact hi's
        · rw [hd2, hd2, if_neg hio, if_neg hi'o, hi, hdcur]
          exact hi'le
    · have hne1 : (j + 1) % table.length ≠ pos := hsp
      rw [slotAt_set_ne (fun hc => hne1 hc.symm)] at hjsucc
      have hio : i ≠ occ := huniq _ i hne1 hjsucc
      rw [if_neg hio] at hpos0
      by_cases hjp : j = pos
      · -- the pair (pos, pos + 1): the slot pos now holds cur with distance ec.dist
        obtain ⟨i'', hi''s, hile⟩ := hP.adj j hj i hjsucc hpos0
        have hi''occ : i'' = occ := by
          rw [hjp, hslot] at hi''s
          exact (Option.some.inj hi''s).symm
        refine ⟨cur, ?_, ?_⟩
        · rw [hjp, slotAt_set_self hP.posLt]
        · have hcne : cur ≠ occ := fun hc => hoccne hc.symm
          rw [hd2, hd2, if_neg hio, if_neg hcne, hdcur]
          rw [hi''occ, hdocc] at hile
          omega
      · obtain ⟨i', hi's, hile⟩ := hP.adj j hj i hjsucc hpos0
        have hi'o : i' ≠ occ := huniq j i' hjp hi's
        refine ⟨i', ?_, ?_⟩
        · rw [slotAt_set_ne (fun hc => hjp hc.symm)]
          exact hi's
        · rw [hd2, hd2, if_neg hio, if_neg hi'o]
          exact hile
  · rw [List.length_set]
    exact mod_lt_of_pos hLpos _
  · rw [List.length_set]
    show (pos + 1) % table.length =
      (h eo.key % table.length + (eo.dist + 1)) % table.length
    have hposq : pos = (h eo.key % table.length + eo.dist) % table.length := by
      rw [← heocong]; omega
    rw [hposq]
    exact mod_shift_succ _ _ _
  · right
    refine ⟨cur, ?_, ?_⟩
    · rw [List.length_set, left_of_succ hLpos hP.posLt]
      rw [slotAt_set_self hP.posLt]
    · have hcne : cur ≠ occ := fun hc => hoccne hc.symm
      rw [hd2, if_neg hcne, hdcur]
      show eo.dist + 1 ≤ ec.dist + 1
      omega

end HashMapModel

namespace HashMapModel

variable {K V : Type} [DecidableEq K]

theorem probeLoopSpec (h : K → Nat) :
    ∀ (fuel : Nat) (items : List (Entry K V)) (table : List (Option Nat))
      (cur pos : Nat) (ec : Entry K V),
      PLInv h items table cur pos ec →
      (∃ t, t < fuel ∧ slotAt table ((pos + t) % table.length) = none ∧
        ec.dist + t < table.length) →
      TInv h (probeLoop items table cur pos fuel).1 (probeLoop items table cur pos fuel).2 ∧
      (probeLoop items table cur pos fuel).2.length = table.length ∧
      (probeLoop items table cur pos fuel).1.map (fun e => (e.id, e.key, e.value)) =
        items.map (fun e => (e.id, e.key, e.value)) := by
  intro fuel
  induction fuel with
  | zero =>
    intro items table cur pos ec hP hfuel
    obtain ⟨t, ht, _, _⟩ := hfuel
    omega
  | succ fuel ih =>
    intro items table cur pos ec hP hfuel
    obtain ⟨t, htf, htslot, htd⟩ := hfuel
    have hLpos : 0 < table.length := Nat.lt_of_le_of_lt (Nat.zero_le _) hP.posLt
    have hecd : ec.dist < table.length := by omega
    cases hslot : slotAt table pos with
    | none =>
      simp only [probeLoop, hslot]
      exact ⟨probePlace hP hslot hecd, by rw [List.length_set], setIdx_map_sig items cur pos⟩
    | some occ =>
      have ht1 : 1 ≤ t := by
        by_contra hc
        have ht0 : t = 0 := by omega
        rw [ht0, Nat.add_zero, Nat.mod_eq_of_lt hP.posLt, hslot] at htslot
        exact Option.noConfusion htslot
      have htL : t < table.length := by omega
      have hL2 : 1 < table.length := by omega
      have harith : ((pos + 1) % table.length + (t - 1)) % table.length =
          (pos + t) % table.length := by
        rw [Nat.mod_add_mod]
        congr 1
        omega
      have hnept : (pos + t) % table.length ≠ pos :=
        offset_ne_base hLpos hP.posLt (by omega) htL
      by_cases hswap : distOf items occ < distOf items cur
      · simp only [probeLoop, hslot]
        rw [if_pos hswap]
        obtain ⟨ec', hP', hd'⟩ := probeSwapStep hP hslot hL2 hecd hswap
        have hfuel' : ∃ t', t' < fuel ∧
            slotAt (table.set pos (some cur))
              (((pos + 1) % table.length + t') % (table.set pos (some cur)).length) = none ∧
            ec'.dist + t' < (table.set pos (some cur)).length := by
          refine ⟨t - 1, by omega, ?_, ?_⟩
          · rw [List.length_set, harith, slotAt_set_ne (fun hc => hnept hc.symm)]
            exact htslot
          · rw [List.length_set]
            omega
        obtain ⟨hT', hlen', hsig'⟩ := ih _ _ _ _ _ hP' hfuel'
        refine ⟨hT', ?_, ?_⟩
        · rw [hlen', List.length_set]
        · rw [hsig', incDist_map_sig, setIdx_map_sig]
      · simp only [probeLoop, hslot]
        rw [if_neg hswap]
        have hP' := probeSkipStep hP hslot hswap
        have hfuel' : ∃ t', t' < fuel ∧
            slotAt table (((pos + 1) % table.length + t') % table.length) = none ∧
            ({ ec with dist := ec.dist + 1 } : Entry K V).dist + t' < table.length := by
          refine ⟨t - 1, by omega, ?_, ?_⟩
          · rw [harith]
            exact htslot
          · show ec.dist + 1 + (t - 1) < table.length
            omega
        obtain ⟨hT', hlen', hsig'⟩ := ih _ _ _ _ _ hP' hfuel'
        exact ⟨hT', hlen', by rw [hsig', incDist_map_sig]⟩

end HashMapModel

namespace HashMapModel

variable {K V : Type} [DecidableEq K]

/-- The full invariant of a map state: consistency of the two structures,
the table at least its initial size 37, the exact load-factor bound
maintained by rehash_if_needed, and freshness of the identifier supply. -/
structure Inv (h : K → Nat) (m : HM K V) : Prop where
  tinv : TInv h m.items m.table
  lenStart : 37 ≤ m.table.length
  cap : 8388608 * m.items.length < 5033165 * m.table.length
  freshIds : ∀ e ∈ m.items, e.id < m.nextId

theorem exists_empty_slot {h : K → Nat} {items : List (Entry K V)}
    {table : List (Option Nat)} (hT : TInv h items table)
    (hlt : items.length < table.length) :
    ∃ j, j < table.length ∧ slotAt table j = none := by
  by_contra hc
  push_neg at hc
  have hsub : List.range table.length ⊆ items.map (fun e => e.idx) := by
    intro j hj
    rw [List.mem_range] at hj
    cases hs : slotAt table j with
    | none => exact absurd hs (hc j hj)
    | some i =>
      obtain ⟨e, hemem, _, hidx⟩ := hT.sound j i hs
      rw [← hidx]
      exact List.mem_map_of_mem _ hemem
  have := List.Subperm.length_le (List.subperm_of_subset (List.nodup_range _) hsub)
  rw [List.length_range, List.length_map] at this
  omega

theorem exists_empty_slot_ne {h : K → Nat} {items : List (Entry K V)}
    {table : List (Option Nat)} (hT : TInv h items table)
    (hlt : items.length + 1 < table.length) (hole : Nat) :
    ∃ j, j < table.length ∧ j ≠ hole ∧ slotAt table j = none := by
  by_contra hc
  push_neg at hc
  by_cases hh : hole < table.length
  · have hmem : hole ∈ List.range table.length := List.mem_range.mpr hh
    have hsub : (List.range table.length).erase hole ⊆ items.map (fun e => e.idx) := by
      intro j hj
      obtain ⟨hjne, hjmem⟩ := (List.nodup_range table.length).mem_erase_iff.mp hj
      rw [List.mem_range] at hjmem
      cases hs : slotAt table j with
      | none => exact absurd hs (hc j hjmem hjne)
      | some i =>
        obtain ⟨e, hemem, _, hidx⟩ := hT.sound j i hs
        rw [← hidx]
        exact List.mem_map_of_mem _ hemem
    have hnd : ((List.range table.length).erase hole).Nodup :=
      (List.erase_sublist _ _).nodup (List.nodup_range _)
    have := List.Subperm.length_le (List.subperm_of_subset hnd hsub)
    rw [List.length_erase_of_mem hmem, List.length_range, List.length_map] at this
    omega
  · have hsub : List.range table.length ⊆ items.map (fun e => e.idx) := by
      intro j hj
      rw [List.mem_range] at hj
      cases hs : slotAt table j with
      | none =>
        have hjne : j ≠ hole := by omega
        exact absurd hs (hc j hj hjne)
      | some i =>
        obtain ⟨e, hemem, _, hidx⟩ := hT.sound j i hs
        rw [← hidx]
        exact List.mem_map_of_mem _ hemem
    have := List.Subperm.length_le (List.subperm_of_subset (List.nodup_range _) hsub)
    rw [List.length_range, List.length_map] at this
    omega

theorem exists_offset {L : Nat} (hL : 0 < L) {p j : Nat} (hp : p < L) (hj : j < L) :
    ∃ t, t < L ∧ (p + t) % L = j := by
  rcases Nat.lt_or_ge j p with hlt | hle
  · refine ⟨j + L - p, by omega, ?_⟩
    have harith : p + (j + L - p) = j + L := by omega
    rw [harith, Nat.add_mod_right]
    exact Nat.mod_eq_of_lt hj
  · refine ⟨j - p, by omega, ?_⟩
    rw [Nat.add_sub_cancel' hle]
    exact Nat.mod_eq_of_lt hj

theorem sig_project_id {items items' : List (Entry K V)}
    (hsig : items'.map (fun e => (e.id, e.key, e.value)) =
      items.map (fun e => (e.id, e.key, e.value))) :
    items'.map (fun e => e.id) = items.map (fun e => e.id) := by
  have h1 := congrArg (List.map (fun p : Nat × K × V => p.1)) hsig
  rw [List.map_map, List.map_map] at h1
  exact h1

theorem sig_project_key {items items' : List (Entry K V)}
    (hsig : items'.map (fun e => (e.id, e.key, e.value)) =
      items.map (fun e => (e.id, e.key, e.value))) :
    items'.map (fun e => e.key) = items.map (fun e => e.key) := by
  have h1 := congrArg (List.map (fun p : Nat × K × V => p.2.1)) hsig
  rw [List.map_map, List.map_map] at h1
  exact h1

theorem sig_project_pair {items items' : List (Entry K V)}
    (hsig : items'.map (fun e => (e.id, e.key, e.value)) =
      items.map (fun e => (e.id, e.key, e.value))) :
    items'.map (fun e => (e.key, e.value)) = items.map (fun e => (e.key, e.value)) := by
  have h1 := congrArg (List.map (fun p : Nat × K × V => p.2)) hsig
  rw [List.map_map, List.map_map] at h1
  exact h1

theorem sig_project_length {items items' : List (Entry K V)}
    (hsig : items'.map (fun e => (e.id, e.key, e.value)) =
      items.map (fun e => (e.id, e.key, e.value))) :
    items'.length = items.length := by
  have h1 := congrArg List.length hsig
  rw [List.length_map, List.length_map] at h1
  exact h1

end HashMapModel

namespace HashMapModel

variable {K V : Type} [DecidableEq K]

theorem emplaceProbeSpec {h : K → Nat} {m : HM K V} (hI : Inv h m) {k : K} {v : V}
    (hfresh : ∀ e ∈ m.items, e.key ≠ k)
    (hcap : 8388608 * (m.items.length + 1) < 5033165 * m.table.length) :
    Inv h (emplaceProbe h m (k, v)) ∧
    toPairs (emplaceProbe h m (k, v)) = toPairs m ++ [(k, v)] ∧
    (emplaceProbe h m (k, v)).table.length = m.table.length ∧
    (emplaceProbe h m (k, v)).items.length = m.items.length + 1 ∧
    (emplaceProbe h m (k, v)).nextId = m.nextId + 1 := by
  have hT := hI.tinv
  have hLpos : 0 < m.table.length := hT.lenPos
  have hsz : m.items.length + 1 < m.table.length := by
    have h2 : 8388608 * (m.items.length + 1) < 8388608 * m.table.length :=
      calc 8388608 * (m.items.length + 1) < 5033165 * m.table.length := hcap
        _ ≤ 8388608 * m.table.length := Nat.mul_le_mul_right _ (by omega)
    exact Nat.lt_of_mul_lt_mul_left h2
  have hids0 : ∀ e ∈ m.items, e.id ≠ m.nextId := by
    intro e he
    have := hI.freshIds e he
    omega
  have hnone : entryOf m.items m.nextId = none := by
    rw [entryOf, List.find?_eq_none]
    intro e he
    simpa using hids0 e he
  have hec : entryOf (m.items ++ [(⟨m.nextId, k, v, 0, 0⟩ : Entry K V)]) m.nextId =
      some ⟨m.nextId, k, v, 0, 0⟩ := by
    rw [entryOf_append_right hnone]
    simp [entryOf]
  have hP : PLInv h (m.items ++ [(⟨m.nextId, k, v, 0, 0⟩ : Entry K V)]) m.table m.nextId
      (h k % m.table.length) ⟨m.nextId, k, v, 0, 0⟩ := by
    refine ⟨hec, ?_, ?_, ?_, ?_, ?_, ?_, ?_, ?_, ?_⟩
    · rw [List.map_append, List.nodup_append]
      refine ⟨hT.idsNodup, List.nodup_singleton _, ?_⟩
      intro a ha hb
      simp only [List.map_cons, List.map_nil, List.mem_singleton] at hb
      subst hb
      obtain ⟨e, he, heq⟩ := List.mem_map.mp ha
      exact hids0 e he heq
    · rw [List.map_append, List.nodup_append]
      refine ⟨hT.keysNodup, List.nodup_singleton _, ?_⟩
      intro a ha hb
      simp only [List.map_cons, List.map_nil, List.mem_singleton] at hb
      subst hb
      obtain ⟨e, he, heq⟩ := List.mem_map.mp ha
      exact hfresh e he heq
    · intro j hc
      obtain ⟨e, hemem, hied, _⟩ := hT.sound j m.nextId hc
      exact hids0 e hemem hied
    · intro e' he' hne'
      rcases List.mem_append.mp he' with h1 | h1
      · exact hT.complete e' h1
      · rw [List.mem_singleton] at h1
        subst h1
        exact absurd rfl hne'
    · intro j i hj
      obtain ⟨e, hemem, hi, hidx⟩ := hT.sound j i hj
      exact ⟨e, List.mem_append.mpr (Or.inl hemem), hi, hidx⟩
    · refine adjOK_congr ?_ hT.adj
      intro j i hj
      obtain ⟨e, hemem, hi, _⟩ := hT.sound j i hj
      have he : entryOf m.items i = some e := by
        rw [← hi]
        exact entryOf_eq_some_of_mem hT.idsNodup hemem
      rw [distOf_of_entryOf (entryOf_append_left he), distOf_of_entryOf he]
    · exact mod_lt_of_pos hLpos _
    · show h k % m.table.length = (h k % m.table.length + 0) % m.table.length
      rw [Nat.add_zero]
      exact (Nat.mod_mod_of_dvd _ (dvd_refl _)).symm
    · left; rfl
  obtain ⟨j, hjlt, hjnone⟩ := exists_empty_slot hT (by omega)
  obtain ⟨t, htL, htpos⟩ := exists_offset hLpos (mod_lt_of_pos hLpos (h k)) hjlt
  have hfuel : ∃ t', t' < m.table.length ∧
      slotAt m.table ((h k % m.table.length + t') % m.table.length) = none ∧
      (⟨m.nextId, k, v, 0, 0⟩ : Entry K V).dist + t' < m.table.length := by
    refine ⟨t, htL, ?_, ?_⟩
    · rw [htpos]; exact hjnone
    · show 0 + t < m.table.length
      omega
  obtain ⟨hT', hlen', hsig'⟩ := probeLoopSpec h m.table.length
    (m.items ++ [(⟨m.nextId, k, v, 0, 0⟩ : Entry K V)]) m.table m.nextId
    (h k % m.table.length) ⟨m.nextId, k, v, 0, 0⟩ hP hfuel
  have hitems : (emplaceProbe h m (k, v)).items =
      (probeLoop (m.items ++ [(⟨m.nextId, k, v, 0, 0⟩ : Entry K V)]) m.table m.nextId
        (h k % m.table.length) m.table.length).1 := rfl
  have htable : (emplaceProbe h m (k, v)).table =
      (probeLoop (m.items ++ [(⟨m.nextId, k, v, 0, 0⟩ : Entry K V)]) m.table m.nextId
        (h k % m.table.length) m.table.length).2 := rfl
  have hnext : (emplaceProbe h m (k, v)).nextId = m.nextId + 1 := rfl
  have hlenitems : (emplaceProbe h m (k, v)).items.length = m.items.length + 1 := by
    rw [hitems, sig_project_length hsig', List.length_append, List.length_cons, List.length_nil]
  refine ⟨⟨?_, ?_, ?_, ?_⟩, ?_, ?_, hlenitems, hnext⟩
  · rw [hitems, htable] at *
    exact hT'
  · rw [htable, hlen']
    exact hI.lenStart
  · rw [htable, hlen', hlenitems]
    exact hcap
  · intro e he
    rw [hnext]
    rw [hitems] at he
    have hidm : e.id ∈ (m.items ++ [(⟨m.nextId, k, v, 0, 0⟩ : Entry K V)]).map
        (fun e => e.id) := by
      rw [← sig_project_id hsig']
      exact List.mem_map_of_mem _ he
    rw [List.map_append] at hidm
    rcases List.mem_append.mp hidm with h1 | h1
    · obtain ⟨e', he', heq⟩ := List.mem_map.mp h1
      have := hI.freshIds e' he'
      omega
    · simp only [List.map_cons, List.map_nil, List.mem_singleton] at h1
      omega
  · show (emplaceProbe h m (k, v)).items.map (fun e => (e.key, e.value)) =
      toPairs m ++ [(k, v)]
    rw [hitems, sig_project_pair hsig', List.map_append]
    rfl
  · rw [htable, hlen']

end HashMapModel

namespace HashMapModel

variable {K V : Type} [DecidableEq K]

theorem findPrimeFrom_ge : ∀ (fuel start : Nat), start ≤ findPrimeFrom start fuel := by
  intro fuel
  induction fuel with
  | zero => intro start; exact Nat.le_refl _
  | succ fuel ih =>
    intro start
    rw [findPrimeFrom]
    split
    · exact Nat.le_refl _
    · exact Nat.le_trans (by omega) (ih (start + 1))

theorem findPrime_ge (n : Nat) : n ≤ findPrime n :=
  findPrimeFrom_ge _ _

theorem pairs_project_fst (m : HM K V) :
    (toPairs m).map Prod.fst = m.items.map (fun e => e.key) := by
  rw [toPairs, List.map_map]
  rfl

theorem insertFuel_eq_present {h : K → Nat} {fuel : Nat} {m : HM K V} {x : K × V}
    (hf : (find h m x.1).isSome = true) :
    insertFuel h (fuel + 1) m x = m := by
  rw [insertFuel, if_pos hf]

theorem insertFuel_eq_fresh {h : K → Nat} {fuel : Nat} {m : HM K V} {x : K × V}
    (hf : find h m x.1 = none) :
    insertFuel h (fuel + 1) m x =
      emplaceProbe h
        (if 8388608 * (m.items.length + 1) < 5033165 * m.table.length then m
         else m.items.foldl (fun acc e => insertFuel h fuel acc (e.key, e.value))
           ⟨[], List.replicate (findPrime (2 * m.table.length)) none, m.nextId⟩) x := by
  simp only [insertFuel, hf, Option.isSome_none, Bool.false_eq_true, if_false]

theorem refillSpec {h : K → Nat} (g : HM K V → K × V → HM K V)
    (hg : ∀ (m : HM K V) (x : K × V), Inv h m → (∀ e ∈ m.items, e.key ≠ x.1) →
      8388608 * (m.items.length + 1) < 5033165 * m.table.length →
      g m x = emplaceProbe h m x) :
    ∀ (ps : List (K × V)) (m : HM K V), Inv h m →
      ((m.items.map (fun e => e.key)) ++ ps.map Prod.fst).Nodup →
      8388608 * (m.items.length + ps.length) < 5033165 * m.table.length →
      Inv h (ps.foldl g m) ∧
      toPairs (ps.foldl g m) = toPairs m ++ ps ∧
      (ps.foldl g m).table.length = m.table.length ∧
      (ps.foldl g m).items.length = m.items.length + ps.length ∧
      (ps.foldl g m).nextId = m.nextId + ps.length := by
  intro ps
  induction ps with
  | nil =>
    intro m hI hnd hcap
    simp only [List.foldl_nil, List.append_nil, List.length_nil, Nat.add_zero]
    exact ⟨hI, trivial, trivial, trivial, trivial⟩
  | cons x rest ih =>
    intro m hI hnd hcap
    have hfresh : ∀ e ∈ m.items, e.key ≠ x.1 := by
      intro e he hc
      rw [List.map_cons, List.nodup_append] at hnd
      exact hnd.2.2 (List.mem_map_of_mem _ he) (by rw [hc]; exact List.mem_cons_self _ _)
    have hcap1 : 8388608 * (m.items.length + 1) < 5033165 * m.table.length := by
      have : m.items.length + 1 ≤ m.items.length + (x :: rest).length := by
        rw [List.length_cons]; omega
      calc 8388608 * (m.items.length + 1) ≤
          8388608 * (m.items.length + (x :: rest).length) := Nat.mul_le_mul_left _ this
        _ < 5033165 * m.table.length := hcap
    have hstep := hg m x hI hfresh hcap1
    obtain ⟨hI', hpairs', hlen', hsize', hnext'⟩ :=
      emplaceProbeSpec hI hfresh hcap1
    rw [← hstep] at hI' hpairs' hlen' hsize' hnext'
    have hkeys' : (g m x).items.map (fun e => e.key) =
        m.items.map (fun e => e.key) ++ [x.1] := by
      have := congrArg (List.map Prod.fst) hpairs'
      rw [pairs_project_fst, List.map_append, pairs_project_fst] at this
      exact this
    have hnd' : ((g m x).items.map (fun e => e.key) ++ rest.map Prod.fst).Nodup := by
      rw [hkeys', List.append_assoc]
      rw [List.map_cons] at hnd
      exact hnd
    have hcap' : 8388608 * ((g m x).items.length + rest.length) <
        5033165 * (g m x).table.length := by
      rw [hsize', hlen']
      rw [List.length_cons] at hcap
      calc 8388608 * (m.items.length + 1 + rest.length) =
          8388608 * (m.items.length + (rest.length + 1)) := by ring
        _ < 5033165 * m.table.length := hcap
    obtain ⟨hIf, hpf, hlf, hsf, hnf⟩ := ih (g m x) hI' hnd' hcap'
    rw [List.foldl_cons]
    refine ⟨hIf, ?_, by rw [hlf, hlen'], ?_, ?_⟩
    · rw [hpf, hpairs', List.append_assoc]
      rfl
    · rw [hsf, hsize', List.length_cons]
      omega
    · rw [hnf, hnext', List.length_cons]
      omega

end HashMapModel

namespace HashMapModel

variable {K V : Type} [DecidableEq K]

/-- The state rebuilt by rehash_if_needed (lines 292-312): a fresh probe
table of the next prime size at least twice the old one, refilled from the
detached order sequence through the normal insert path. -/
def rehashed (h : K → Nat) (fuel : Nat) (m : HM K V) : HM K V :=
  m.items.foldl (fun acc e => insertFuel h fuel acc (e.key, e.value))
    ⟨[], List.replicate (findPrime (2 * m.table.length)) none, m.nextId⟩

theorem insertFuel_eq_fresh' {h : K → Nat} {fuel : Nat} {m : HM K V} {x : K × V}
    (hf : find h m x.1 = none) :
    insertFuel h (fuel + 1) m x =
      emplaceProbe h
        (if 8388608 * (m.items.length + 1) < 5033165 * m.table.length then m
         else rehashed h fuel m) x :=
  insertFuel_eq_fresh hf

theorem baseInv (h : K → Nat) {L : Nat} (hL : 37 ≤ L) (nid : Nat) :
    Inv h (⟨[], List.replicate L none, nid⟩ : HM K V) := by
  refine ⟨⟨?_, ?_, ?_, ?_, ?_, ?_⟩, ?_, ?_, ?_⟩
  · rw [List.length_replicate]; omega
  · exact List.nodup_nil
  · exact List.nodup_nil
  · intro e he
    exact absurd he (List.not_mem_nil e)
  · intro j i hj
    rw [slotAt_replicate] at hj
    exact Option.noConfusion hj
  · intro j hjl i hj
    rw [slotAt_replicate] at hj
    exact Option.noConfusion hj
  · rw [List.length_replicate]; exact hL
  · rw [List.length_replicate, List.length_nil, Nat.mul_zero]
    exact Nat.mul_pos (by omega) (by omega)
  · intro e he
    exact absurd he (List.not_mem_nil e)

theorem rehashSpec {h : K → Nat} {m : HM K V} (hI : Inv h m) (fuel : Nat) :
    Inv h (rehashed h (fuel + 1) m) ∧
    toPairs (rehashed h (fuel + 1) m) = toPairs m ∧
    (rehashed h (fuel + 1) m).table.length = findPrime (2 * m.table.length) ∧
    (rehashed h (fuel + 1) m).items.length = m.items.length := by
  have hL := hI.lenStart
  have hLp : 37 ≤ findPrime (2 * m.table.length) :=
    Nat.le_trans (by omega) (findPrime_ge _)
  have hbase : Inv h
      (⟨[], List.replicate (findPrime (2 * m.table.length)) none, m.nextId⟩ : HM K V) :=
    baseInv h hLp m.nextId
  have hfold : rehashed h (fuel + 1) m =
      (m.items.map (fun e => (e.key, e.value))).foldl (insertFuel h (fuel + 1))
        ⟨[], List.replicate (findPrime (2 * m.table.length)) none, m.nextId⟩ := by
    rw [rehashed, List.foldl_map]
  have hg : ∀ (m' : HM K V) (x : K × V), Inv h m' → (∀ e ∈ m'.items, e.key ≠ x.1) →
      8388608 * (m'.items.length + 1) < 5033165 * m'.table.length →
      insertFuel h (fuel + 1) m' x = emplaceProbe h m' x := by
    intro m' x hI' hfr hcap'
    have hfind : find h m' x.1 = none := find_eq_none hfr
    rw [insertFuel_eq_fresh' hfind, if_pos hcap']
  have hnd : ((([] : List (Entry K V)).map (fun e => e.key)) ++
      (m.items.map (fun e => (e.key, e.value))).map Prod.fst).Nodup := by
    rw [List.map_nil, List.nil_append, List.map_map]
    exact hI.tinv.keysNodup
  have hcapfold : 8388608 * (([] : List (Entry K V)).length +
      (m.items.map (fun e => (e.key, e.value))).length) <
      5033165 * (List.replicate (findPrime (2 * m.table.length)) (none : Option Nat)).length := by
    rw [List.length_nil, List.length_map, List.length_replicate, Nat.zero_add]
    have h2 : 2 * m.table.length ≤ findPrime (2 * m.table.length) := findPrime_ge _
    calc 8388608 * m.items.length < 5033165 * m.table.length := hI.cap
      _ ≤ 5033165 * findPrime (2 * m.table.length) := Nat.mul_le_mul_left _ (by omega)
  obtain ⟨hIf, hpf, hlf, hsf, hnf⟩ :=
    refillSpec (insertFuel h (fuel + 1)) hg _ _ hbase hnd hcapfold
  rw [← hfold] at hIf hpf hlf hsf
  refine ⟨hIf, ?_, ?_, ?_⟩
  · rw [hpf]
    simp [toPairs]
  · rw [hlf, List.length_replicate]
  · rw [hsf, List.length_nil, List.length_map, Nat.zero_add]

theorem insert_dup {h : K → Nat} {m : HM K V} (hI : Inv h m) {x : K × V}
    {e : Entry K V} (he : e ∈ m.items) (hk : e.key = x.1) :
    insert h m x = m := by
  rw [insert]
  have hfind : find h m x.1 = some e.id := by
    rw [← hk]
    exact find_eq_some hI.tinv he
  have hsome : (find h m x.1).isSome = true := by rw [hfind]; rfl
  have h3 : m.items.length + 3 = (m.items.length + 2) + 1 := rfl
  rw [h3]
  exact insertFuel_eq_present hsome

theorem insert_fresh {h : K → Nat} {m : HM K V} (hI : Inv h m) {x : K × V}
    (hfr : ∀ e ∈ m.items, e.key ≠ x.1) :
    Inv h (insert h m x) ∧
    toPairs (insert h m x) = toPairs m ++ [x] ∧
    (insert h m x).items.length = m.items.length + 1 ∧
    (insert h m x).table.length =
      (if 8388608 * (m.items.length + 1) < 5033165 * m.table.length then m.table.length
       else findPrime (2 * m.table.length)) := by
  have hfind : find h m x.1 = none := find_eq_none hfr
  have h3 : m.items.length + 3 = (m.items.length + 2) + 1 := rfl
  have heq : insert h m x = emplaceProbe h
      (if 8388608 * (m.items.length + 1) < 5033165 * m.table.length then m
       else rehashed h (m.items.length + 2) m) x := by
    rw [insert, h3]
    exact insertFuel_eq_fresh' hfind
  by_cases htrig : 8388608 * (m.items.length + 1) < 5033165 * m.table.length
  · rw [if_pos htrig] at heq
    obtain ⟨hI', hp', hl', hs', _⟩ := emplaceProbeSpec hI hfr htrig
    rw [← heq] at hI' hp' hl' hs'
    exact ⟨hI', hp', hs', by rw [if_pos htrig, hl']⟩
  · rw [if_neg htrig] at heq
    have h2 : m.items.length + 2 = (m.items.length + 1) + 1 := rfl
    have hreh := rehashSpec hI (m.items.length + 1)
    rw [← h2] at hreh
    obtain ⟨hI1, hp1, hl1, hs1⟩ := hreh
    have hkeys1 : (rehashed h (m.items.length + 2) m).items.map (fun e => e.key) =
        m.items.map (fun e => e.key) := by
      have := congrArg (List.map Prod.fst) hp1
      rw [pairs_project_fst, pairs_project_fst] at this
      exact this
    have hfr1 : ∀ e ∈ (rehashed h (m.items.length + 2) m).items, e.key ≠ x.1 := by
      intro e he hc
      have hmem : e.key ∈ (rehashed h (m.items.length + 2) m).items.map
          (fun e => e.key) := List.mem_map_of_mem _ he
      rw [hkeys1] at hmem
      obtain ⟨e', he', heq'⟩ := List.mem_map.mp hmem
      exact hfr e' he' (by rw [heq', hc])
    have hcap1 : 8388608 * ((rehashed h (m.items.length + 2) m).items.length + 1) <
        5033165 * (rehashed h (m.items.length + 2) m).table.length := by
      rw [hs1, hl1]
      have hge : 2 * m.table.length ≤ findPrime (2 * m.table.length) := findPrime_ge _
      have hcap := hI.cap
      have hL := hI.lenStart
      have hbig : 8388608 ≤ 5033165 * m.table.length := by
        calc (8388608 : Nat) ≤ 5033165 * 37 := by omega
          _ ≤ 5033165 * m.table.length := Nat.mul_le_mul_left _ hL
      calc 8388608 * (m.items.length + 1) = 8388608 * m.items.length + 8388608 := by ring
        _ < 5033165 * m.table.length + 5033165 * m.table.length := by omega
        _ = 5033165 * (2 * m.table.length) := by ring
        _ ≤ 5033165 * findPrime (2 * m.table.length) := Nat.mul_le_mul_left _ hge
    obtain ⟨hI', hp', hl', hs', _⟩ := emplaceProbeSpec hI1 hfr1 hcap1
    rw [← heq] at hI' hp' hl' hs'
    refine ⟨hI', ?_, ?_, ?_⟩
    · rw [hp', hp1]
    · rw [hs', hs1]
    · rw [if_neg htrig, hl', hl1]

end HashMapModel

namespace HashMapModel

variable {K V : Type} [DecidableEq K]

theorem succ_mod_inj {L : Nat} (hL : 0 < L) {a b : Nat} (ha : a < L) (hb : b < L)
    (h : (a + 1) % L = (b + 1) % L) : a = b := by
  have h1 := left_of_succ hL ha
  have h2 := left_of_succ hL hb
  rw [h] at h1
  omega

/-- The loop invariant of backward-shift deletion: the hole slot is empty,
every entry is placed, the table is sound, Robin Hood adjacency holds away
from the hole, and the pair of slots bracketing the hole satisfies the
two-step adjacency bound. -/
structure SLInv (h : K → Nat) (items : List (Entry K V)) (table : List (Option Nat))
    (hole : Nat) : Prop where
  lenPos : 0 < table.length
  holeLt : hole < table.length
  idsN : (items.map (fun e => e.id)).Nodup
  keysN : (items.map (fun e => e.key)).Nodup
  empt : slotAt table hole = none
  placed : ∀ e ∈ items, placedOK h table e
  sound : ∀ j i, slotAt table j = some i → ∃ e ∈ items, e.id = i ∧ e.idx = j
  adjx : ∀ j, j < table.length → j ≠ hole →
    ∀ i, slotAt table ((j + 1) % table.length) = some i → 0 < distOf items i →
      ∃ i', slotAt table j = some i' ∧ distOf items i ≤ distOf items i' + 1
  skip : ∀ i, slotAt table ((hole + 1) % table.length) = some i → 2 ≤ distOf items i →
    ∃ i', slotAt table ((hole + (table.length - 1)) % table.length) = some i' ∧
      distOf items i ≤ distOf items i' + 2

theorem shiftStopTInv {h : K → Nat} {items : List (Entry K V)} {table : List (Option Nat)}
    {hole : Nat} (hS : SLInv h items table hole)
    (hstop : ∀ i, slotAt table ((hole + 1) % table.length) = some i → distOf items i = 0) :
    TInv h items table := by
  refine ⟨hS.lenPos, hS.idsN, hS.keysN, hS.placed, hS.sound, ?_⟩
  intro j hj i hsl hpos
  by_cases hjh : j = hole
  · rw [hjh] at hsl
    have := hstop i hsl
    omega
  · exact hS.adjx j hj hjh i hsl hpos

theorem shiftStep {h : K → Nat} {items : List (Entry K V)} {table : List (Option Nat)}
    {hole : Nat} (hS : SLInv h items table hole) {j0 : Nat}
    (hnext : slotAt table ((hole + 1) % table.length) = some j0)
    (hd : 0 < distOf items j0) (hL2 : 1 < table.length) :
    SLInv h (decDist (setIdx items j0 hole) j0)
      ((table.set hole (some j0)).set ((hole + 1) % table.length) none)
      ((hole + 1) % table.length) := by
  have hLpos : 0 < table.length := hS.lenPos
  have hnextLt : (hole + 1) % table.length < table.length := mod_lt_of_pos hLpos _
  have hnh : (hole + 1) % table.length ≠ hole :=
    offset_ne_base hLpos hS.holeLt (by omega) hL2
  obtain ⟨ej, hejmem, hejid, hejidx⟩ := hS.sound _ j0 hnext
  have hej : entryOf items j0 = some ej := by
    rw [← hejid]
    exact entryOf_eq_some_of_mem hS.idsN hejmem
  have hdj : distOf items j0 = ej.dist := distOf_of_entryOf hej
  obtain ⟨hejlt, hejslot, hejdlt, hejcong⟩ := hS.placed ej hejmem
  have huniq : ∀ j' i', j' ≠ (hole + 1) % table.length → slotAt table j' = some i' →
      i' ≠ j0 := by
    intro j' i' hj' hs' hc
    obtain ⟨e, hemem, hied, hidx⟩ := hS.sound j' i' hs'
    have : e = ej := eq_of_id_mem hS.idsN hemem hejmem (by omega)
    rw [this] at hidx
    omega
  -- slot values of the updated table
  have hslot2 : ∀ q, q ≠ hole → q ≠ (hole + 1) % table.length →
      slotAt ((table.set hole (some j0)).set ((hole + 1) % table.length) none) q =
        slotAt table q := by
    intro q h1 h2
    rw [slotAt_set_ne (fun hc => h2 hc.symm), slotAt_set_ne (fun hc => h1 hc.symm)]
  have hslot2hole : slotAt ((table.set hole (some j0)).set ((hole + 1) % table.length) none)
      hole = some j0 := by
    rw [slotAt_set_ne hnh, slotAt_set_self hS.holeLt]
  have hslot2next : slotAt ((table.set hole (some j0)).set ((hole + 1) % table.length) none)
      ((hole + 1) % table.length) = none :=
    slotAt_set_self (by rw [List.length_set]; exact hnextLt) none
  have hd2 : ∀ i0, distOf (decDist (setIdx items j0 hole) j0) i0 =
      if i0 = j0 then ej.dist - 1 else distOf items i0 := by
    intro i0
    by_cases h0 : i0 = j0
    · rw [h0, if_pos rfl]
      have hset : entryOf (setIdx items j0 hole) j0 = some { ej with idx := hole } :=
        entryOf_setIdx_self hej
      rw [distOf_of_entryOf (entryOf_decDist_self hset)]
    · rw [if_neg h0, distOf_decDist_ne h0, distOf_setIdx]
  have htlen : ((table.set hole (some j0)).set ((hole + 1) % table.length) none).length =
      table.length := by
    rw [List.length_set, List.length_set]
  have hhole2 : hole = ((hole + 1) % table.length + (table.length - 1)) % table.length :=
    (left_of_succ hLpos hS.holeLt).symm
  refine ⟨?_, ?_, ?_, ?_, ?_, ?_, ?_, ?_, ?_⟩
  · rw [htlen]; exact hLpos
  · rw [htlen]; exact hnextLt
  · rw [decDist_map_id, setIdx_map_id]; exact hS.idsN
  · rw [decDist_map_key, setIdx_map_key]; exact hS.keysN
  · exact hslot2next
  · intro e' he'
    simp only [decDist, setIdx, List.mem_map] at he'
    obtain ⟨b, ⟨a, hamem, rfl⟩, rfl⟩ := he'
    by_cases h1 : a.id = j0
    · have hae : a = ej := eq_of_id_mem hS.idsN hamem hejmem (by omega)
      subst hae
      have hb1 : (a.id == j0) = true := by simpa using h1
      simp only [hb1, if_true]
      refine ⟨?_, ?_, ?_, ?_⟩
      · rw [htlen]; exact hS.holeLt
      · show slotAt _ hole = some ({ a with idx := hole, dist := a.dist - 1} : Entry K V).id
        rw [hslot2hole]
        show some j0 = some a.id
        rw [h1]
      · rw [htlen]
        show a.dist - 1 < table.length
        omega
      · rw [htlen]
        show hole = (h a.key % table.length + (a.dist - 1)) % table.length
        have hstep : ((h a.key % table.length + (a.dist - 1)) % table.length + 1) %
            table.length = (h a.key % table.length + a.dist) % table.length := by
          rw [Nat.mod_add_mod]
          congr 1
          rw [hdj] at hd
          omega
        rw [← hejcong] at hstep
        have hxlt : (h a.key % table.length + (a.dist - 1)) % table.length < table.length :=
          mod_lt_of_pos hLpos _
        refine succ_mod_inj hLpos hS.holeLt hxlt ?_
        rw [hstep, hejidx]
    · have hb1 : (a.id == j0) = false := by
        simp only [beq_eq_false_iff_ne, ne_eq]; exact h1
      simp only [hb1, Bool.false_eq_true, if_false]
      obtain ⟨hidx, hsl, hdl, hcong⟩ := hS.placed a hamem
      have hne1 : a.idx ≠ hole := by
        intro hc
        rw [hc, hS.empt] at hsl
        exact Option.noConfusion hsl
      have hne2 : a.idx ≠ (hole + 1) % table.length := by
        intro hc
        rw [hc, hnext] at hsl
        exact h1 (Option.some.inj hsl).symm
      refine ⟨?_, ?_, ?_, ?_⟩
      · rw [htlen]; exact hidx
      · rw [hslot2 _ hne1 hne2]; exact hsl
      · rw [htlen]; exact hdl
      · rw [htlen]; exact hcong
  · intro j i hji
    by_cases hj1 : j = (hole + 1) % table.length
    · rw [hj1, hslot2next] at hji
      exact Option.noConfusion hji
    · by_cases hj2 : j = hole
      · rw [hj2, hslot2hole] at hji
        have hi : i = j0 := (Option.some.inj hji).symm
        refine ⟨{ ej with idx := hole, dist := ej.dist - 1 }, ?_, ?_, ?_⟩
        · simp only [decDist, setIdx, List.mem_map]
          refine ⟨{ ej with idx := hole }, ⟨ej, hejmem, by simp [hejid]⟩, ?_⟩
          have : (({ ej with idx := hole } : Entry K V).id == j0) = true := by
            simpa using hejid
          simp [this]
        · show ej.id = i
          omega
        · show hole = j
          omega
      · rw [hslot2 _ hj2 hj1] at hji
        obtain ⟨e, hemem, hied, hidx⟩ := hS.sound j i hji
        have hine : i ≠ j0 := huniq j i hj1 hji
        have hb1 : (e.id == j0) = false := by
          simp only [beq_eq_false_iff_ne, ne_eq]; omega
        refine ⟨e, ?_, hied, hidx⟩
        simp only [decDist, setIdx, List.mem_map]
        exact ⟨e, ⟨e, hemem, by simp [hb1]⟩, by simp [hb1]⟩
  · intro j hj hjne i hjsucc hpos0
    rw [htlen] at hj hjsucc
    rw [hd2] at hpos0
    by_cases hc1 : (j + 1) % table.length = (hole + 1) % table.length
    · rw [hc1, hslot2next] at hjsucc
      exact Option.noConfusion hjsucc
    · by_cases hc2 : (j + 1) % table.length = hole
      · -- j is the left neighbour of the hole; the shifted entry landed at hole
        rw [hc2, hslot2hole] at hjsucc
        have hi : i = j0 := (Option.some.inj hjsucc).symm
        rw [if_pos hi] at hpos0
        have hdge2 : 2 ≤ ej.dist := by omega
        have hL3 : 2 < table.length := by omega
        have hjval : j = (hole + (table.length - 1)) % table.length := by
          have := left_of_succ hLpos hj
          rw [hc2] at this
          omega
        obtain ⟨i', hi's, hile⟩ := hS.skip j0 hnext (by omega)
        have hne1 : j ≠ hole := by
          rw [hjval]
          exact offset_ne_base hLpos hS.holeLt (by omega) (by omega)
        have hne2 : j ≠ (hole + 1) % table.length := by
          rw [hjval]
          intro hcq
          have := offset_inj hLpos (by omega : table.length - 1 < table.length)
            (by omega : 1 < table.length) (by rw [hcq])
          omega
        have hi'ne : i' ≠ j0 := by
          refine huniq j i' hne2 ?_
          rw [hjval]; exact hi's
        refine ⟨i', ?_, ?_⟩
        · rw [hslot2 _ hne1 hne2, hjval]
          exact hi's
        · rw [hd2, hd2, if_pos hi, if_neg hi'ne]
          omega
      · -- generic pair away from the hole
        have hjnh : j ≠ hole := by
          intro hc
          rw [hc] at hc1
          exact hc1 rfl
        have hjnl : j ≠ ((hole + (table.length - 1)) % table.length) := by
          intro hc
          rw [hc, succ_of_left hLpos hS.holeLt] at hc2
          exact hc2 rfl
        rw [hslot2 _ hc2 hc1] at hjsucc
        have hine : i ≠ j0 := huniq _ i hc1 hjsucc
        rw [if_neg hine] at hpos0
        obtain ⟨i', hi's, hile⟩ := hS.adjx j hj hjnh i hjsucc hpos0
        have hi'ne : i' ≠ j0 := by
          refine huniq j i' ?_ hi's
          exact hjne
        refine ⟨i', ?_, ?_⟩
        · rw [hslot2 _ hjnh hjne]
          exact hi's
        · rw [hd2, hd2, if_neg hine, if_neg hi'ne]
          exact hile
  · intro i hsl hge2
    rw [htlen] at hsl ⊢
    rw [hd2] at hge2
    by_cases hc1 : ((hole + 1) % table.length + 1) % table.length = hole
    · -- only possible when the table has exactly two slots
      have hfold : (hole + 2) % table.length = hole := by
        rw [Nat.mod_add_mod] at hc1
        have harith : hole + 1 + 1 = hole + 2 := by omega
        rw [harith] at hc1
        exact hc1
      have hhlt := hS.holeLt
      have hL2' : table.length = 2 := by
        rcases Nat.lt_or_ge (hole + 2) table.length with hcase | hcase
        · rw [Nat.mod_eq_of_lt hcase] at hfold
          omega
        · have hsub : (hole + 2) % table.length = hole + 2 - table.length := by
            rw [Nat.mod_eq_sub_mod hcase]
            exact Nat.mod_eq_of_lt (by omega)
          omega
      rw [hc1, hslot2hole] at hsl
      have hi : i = j0 := (Option.some.inj hsl).symm
      rw [if_pos hi] at hge2
      omega
    · by_cases hc0 : ((hole + 1) % table.length + 1) % table.length = (hole + 1) % table.length
      · exact absurd hc0 (offset_ne_base hLpos hnextLt (by omega) (by omega))
      · rw [hslot2 _ hc1 hc0] at hsl
        have hine : i ≠ j0 := huniq _ i hc0 hsl
        rw [if_neg hine] at hge2
        obtain ⟨i'', hi''s, hile⟩ := hS.adjx ((hole + 1) % table.length) hnextLt hnh i hsl
          (by omega)
        have hi''j0 : i'' = j0 := by
          rw [hnext] at hi''s
          exact (Option.some.inj hi''s).symm
        rw [hi''j0, hdj] at hile
        refine ⟨j0, ?_, ?_⟩
        · rw [← hhole2]
          exact hslot2hole
        · rw [hd2, hd2, if_neg hine, if_pos rfl]
          omega

end HashMapModel

namespace HashMapModel

variable {K V : Type} [DecidableEq K]

theorem shiftLoopSpec (h : K → Nat) :
    ∀ (fuel : Nat) (items : List (Entry K V)) (table : List (Option Nat)) (hole : Nat),
      SLInv h items table hole →
      (∃ t, t < fuel ∧ 1 + t < table.length ∧
        slotAt table ((hole + 1 + t) % table.length) = none) →
      TInv h (shiftLoop items table hole fuel).1 (shiftLoop items table hole fuel).2 ∧
      (shiftLoop items table hole fuel).2.length = table.length ∧
      (shiftLoop items table hole fuel).1.map (fun e => (e.id, e.key, e.value)) =
        items.map (fun e => (e.id, e.key, e.value)) := by
  intro fuel
  induction fuel with
  | zero =>
    intro items table hole hS hfl
    obtain ⟨t, ht, _, _⟩ := hfl
    omega
  | succ fuel ih =>
    intro items table hole hS hfl
    obtain ⟨t, htf, htL, htnone⟩ := hfl
    have hLpos := hS.lenPos
    have hholeLt := hS.holeLt
    have hL2 : 1 < table.length := by omega
    cases hnext : slotAt table ((hole + 1) % table.length) with
    | none =>
      simp only [shiftLoop, hnext]
      refine ⟨shiftStopTInv hS ?_, by trivial, by trivial⟩
      intro i hi
      rw [hnext] at hi
      exact Option.noConfusion hi
    | some j0 =>
      by_cases hd : 0 < distOf items j0
      · simp only [shiftLoop, hnext]
        rw [if_pos hd]
        have hS' := shiftStep hS hnext hd hL2
        have ht1 : 1 ≤ t := by
          by_contra hc
          have ht0 : t = 0 := by omega
          rw [ht0, Nat.add_zero] at htnone
          rw [htnone] at hnext
          exact Option.noConfusion hnext
        have harith : ((hole + 1) % table.length + 1 + (t - 1)) % table.length =
            (hole + 1 + t) % table.length := by
          rw [Nat.add_assoc, Nat.mod_add_mod]
          congr 1
          omega
        have hsum : hole + 1 + t = hole + (1 + t) := by omega
        have hne_hole : (hole + 1 + t) % table.length ≠ hole := by
          rw [hsum]
          exact offset_ne_base hLpos hholeLt (by omega) htL
        have hne_next : (hole + 1 + t) % table.length ≠ (hole + 1) % table.length := by
          intro hc
          rw [hsum] at hc
          have hsucc1 : (hole + 1) % table.length = (hole + 1) % table.length := rfl
          have := offset_inj hLpos htL hL2 hc
          omega
        have htlen2 : ((table.set hole (some j0)).set ((hole + 1) % table.length)
            none).length = table.length := by
          rw [List.length_set, List.length_set]
        have hfl' : ∃ t', t' < fuel ∧
            1 + t' < ((table.set hole (some j0)).set ((hole + 1) % table.length)
              none).length ∧
            slotAt ((table.set hole (some j0)).set ((hole + 1) % table.length) none)
              (((hole + 1) % table.length + 1 + t') %
                ((table.set hole (some j0)).set ((hole + 1) % table.length) none).length) =
              none := by
          refine ⟨t - 1, by omega, ?_, ?_⟩
          · rw [htlen2]
            omega
          · rw [htlen2, harith]
            rw [slotAt_set_ne (fun hc => hne_next hc.symm),
              slotAt_set_ne (fun hc => hne_hole hc.symm)]
            exact htnone
        obtain ⟨hT', hlen', hsig'⟩ := ih _ _ _ hS' hfl'
        refine ⟨hT', ?_, ?_⟩
        · rw [hlen', htlen2]
        · rw [hsig', decDist_map_sig, setIdx_map_sig]
      · simp only [shiftLoop, hnext]
        rw [if_neg hd]
        refine ⟨shiftStopTInv hS ?_, by trivial, by trivial⟩
        intro i hi
        rw [hnext] at hi
        have hij : j0 = i := Option.some.inj hi
        show distOf items i = 0
        rw [← hij]
        omega

end HashMapModel

namespace HashMapModel

variable {K V : Type} [DecidableEq K]

theorem pairs_filter {items : List (Entry K V)} {i0 : Nat} {k : K}
    (hiff : ∀ e' ∈ items, (e'.id = i0 ↔ e'.key = k)) :
    (items.filter (fun e' => e'.id ≠ i0)).map (fun e => (e.key, e.value)) =
      (items.map (fun e => (e.key, e.value))).filter (fun p => p.1 ≠ k) := by
  induction items with
  | nil => rfl
  | cons e rest ih =>
    have hiffe := hiff e (List.mem_cons_self e rest)
    have hrest : ∀ e' ∈ rest, (e'.id = i0 ↔ e'.key = k) := fun e' h' =>
      hiff e' (List.mem_cons_of_mem _ h')
    by_cases hc : e.id = i0
    · have hk : e.key = k := hiffe.mp hc
      have h1 : (decide ¬e.id = i0) = false := by simp [hc]
      have h2 : (decide ¬((fun e : Entry K V => (e.key, e.value)) e).1 = k) = false := by
        simp [hk]
      simp only [List.filter_cons, List.map_cons, h1, h2, Bool.false_eq_true, if_false]
      exact ih hrest
    · have hk : ¬ e.key = k := fun hkk => hc (hiffe.mpr hkk)
      have h1 : (decide ¬e.id = i0) = true := by simp [hc]
      have h2 : (decide ¬((fun e : Entry K V => (e.key, e.value)) e).1 = k) = true := by
        simp [hk]
      simp only [List.filter_cons, List.map_cons, h1, h2, if_true]
      rw [ih hrest]

theorem filter_ne_length {items : List (Entry K V)}
    (hids : (items.map (fun e => e.id)).Nodup) {e : Entry K V} (he : e ∈ items) :
    (items.filter (fun e' => e'.id ≠ e.id)).length + 1 = items.length := by
  induction items with
  | nil => exact absurd he (List.not_mem_nil e)
  | cons a rest ih =>
    rw [List.map_cons] at hids
    by_cases hc : a.id = e.id
    · have h1 : (decide ¬a.id = e.id) = false := by simp [hc]
      have hall : rest.filter (fun e' => e'.id ≠ e.id) = rest := by
        rw [List.filter_eq_self]
        intro b hb
        have hbne : b.id ≠ a.id := by
          intro hbend
          exact (List.nodup_cons.mp hids).1 (hbend ▸ List.mem_map_of_mem _ hb)
        simp only [ne_eq, decide_eq_true_eq]
        omega
      simp only [List.filter_cons, h1, Bool.false_eq_true, if_false, hall,
        List.length_cons]
    · have h1 : (decide ¬a.id = e.id) = true := by simp [hc]
      have hemem : e ∈ rest := by
        rcases List.mem_cons.mp he with h' | h'
        · rw [h'] at hc
          exact absurd rfl hc
        · exact h'
      simp only [List.filter_cons, h1, if_true, List.length_cons]
      rw [← ih (List.nodup_cons.mp hids).2 hemem]

theorem eraseByIdSpec {h : K → Nat} {m : HM K V} (hI : Inv h m) {e : Entry K V}
    (he : e ∈ m.items) :
    Inv h (eraseById m e.id) ∧
    toPairs (eraseById m e.id) = (toPairs m).filter (fun p => p.1 ≠ e.key) ∧
    (eraseById m e.id).items.length + 1 = m.items.length ∧
    (eraseById m e.id).table.length = m.table.length ∧
    (eraseById m e.id).nextId = m.nextId := by
  have hT := hI.tinv
  have hLpos : 0 < m.table.length := hT.lenPos
  have hL2 : 1 < m.table.length := by
    have := hI.lenStart
    omega
  have hent : entryOf m.items e.id = some e := entryOf_eq_some_of_mem hT.idsNodup he
  obtain ⟨hidx, hslot, hdl, hcong⟩ := hT.complete e he
  have hsz : m.items.length + 1 < m.table.length := by
    have hcap := hI.cap
    have hL37 := hI.lenStart
    have h2 : 8388608 * (m.items.length + 1) < 8388608 * m.table.length := by
      have h4 : 8388608 ≤ 3355443 * m.table.length := by
        calc (8388608 : Nat) ≤ 3355443 * 37 := by omega
          _ ≤ 3355443 * m.table.length := Nat.mul_le_mul_left _ hL37
      calc 8388608 * (m.items.length + 1) = 8388608 * m.items.length + 8388608 := by ring
        _ < 5033165 * m.table.length + 8388608 := by omega
        _ ≤ 8388608 * m.table.length := by omega
    exact Nat.lt_of_mul_lt_mul_left h2
  have huniq : ∀ j' i', j' ≠ e.idx → slotAt m.table j' = some i' → i' ≠ e.id := by
    intro j' i' hj' hs' hc
    obtain ⟨e'', hemem, hied, hidxx⟩ := hT.sound j' i' hs'
    have : e'' = e := eq_of_id_mem hT.idsNodup hemem he (by omega)
    rw [this] at hidxx
    omega
  have hmem0 : ∀ e', e' ∈ m.items.filter (fun e'' => e''.id ≠ e.id) ↔
      e' ∈ m.items ∧ e'.id ≠ e.id := by
    intro e'
    rw [List.mem_filter]
    simp
  have hdist0 : ∀ i, i ≠ e.id →
      distOf (m.items.filter (fun e'' => e''.id ≠ e.id)) i = distOf m.items i := by
    intro i hi
    rw [distOf, entryOf_filter_ne hi, distOf]
  have hS : SLInv h (m.items.filter (fun e'' => e''.id ≠ e.id))
      (m.table.set e.idx none) e.idx := by
    refine ⟨?_, ?_, ?_, ?_, ?_, ?_, ?_, ?_, ?_⟩
    · rw [List.length_set]; exact hLpos
    · rw [List.length_set]; exact hidx
    · exact ((List.filter_sublist _).map _).nodup hT.idsNodup
    · exact ((List.filter_sublist _).map _).nodup hT.keysNodup
    · exact slotAt_set_self hidx none
    · intro e' he'
      obtain ⟨hemem, hene⟩ := (hmem0 e').mp he'
      obtain ⟨hidx', hsl', hdl', hcong'⟩ := hT.complete e' hemem
      have hne : e'.idx ≠ e.idx := by
        intro hc
        rw [hc, hslot] at hsl'
        exact hene (Option.some.inj hsl').symm
      refine ⟨?_, ?_, ?_, ?_⟩
      · rw [List.length_set]; exact hidx'
      · rw [slotAt_set_ne (fun hc => hne hc.symm)]; exact hsl'
      · rw [List.length_set]; exact hdl'
      · rw [List.length_set]; exact hcong'
    · intro j i hji
      by_cases hj : j = e.idx
      · rw [hj, slotAt_set_self hidx] at hji
        exact Option.noConfusion hji
      · rw [slotAt_set_ne (fun hc => hj hc.symm)] at hji
        obtain ⟨e'', hemem, hied, hidxx⟩ := hT.sound j i hji
        have hine : i ≠ e.id := huniq j i hj hji
        refine ⟨e'', (hmem0 e'').mpr ⟨hemem, by omega⟩, hied, hidxx⟩
    · intro j hj hjne i hjsucc hpos0
      rw [List.length_set] at hj hjsucc
      by_cases hc1 : (j + 1) % m.table.length = e.idx
      · rw [hc1, slotAt_set_self hidx] at hjsucc
        exact Option.noConfusion hjsucc
      · rw [slotAt_set_ne (fun hc => hc1 hc.symm)] at hjsucc
        have hine : i ≠ e.id := huniq _ i hc1 hjsucc
        rw [hdist0 i hine] at hpos0
        obtain ⟨i', hi's, hile⟩ := hT.adj j hj i hjsucc hpos0
        have hi'ne : i' ≠ e.id := huniq j i' hjne hi's
        refine ⟨i', ?_, ?_⟩
        · rw [slotAt_set_ne (fun hc => hjne hc.symm)]
          exact hi's
        · rw [hdist0 i hine, hdist0 i' hi'ne]
          exact hile
    · intro i hsl hge2
      rw [List.length_set] at hsl ⊢
      have hc1 : (e.idx + 1) % m.table.length ≠ e.idx :=
        offset_ne_base hLpos hidx (by omega) hL2
      rw [slotAt_set_ne (fun hc => hc1 hc.symm)] at hsl
      have hine : i ≠ e.id := huniq _ i hc1 hsl
      rw [hdist0 i hine] at hge2
      obtain ⟨i'', hi''s, hile⟩ := hT.adj e.idx hidx i hsl (by omega)
      have hi''e : i'' = e.id := by
        rw [hslot] at hi''s
        exact (Option.some.inj hi''s).symm
      rw [hi''e, distOf_of_entryOf hent] at hile
      have hedpos : 0 < e.dist := by omega
      have hleftpos : (e.idx + (m.table.length - 1)) % m.table.length ≠ e.idx :=
        offset_ne_base hLpos hidx (by omega) (by omega)
      have hsucc : ((e.idx + (m.table.length - 1)) % m.table.length + 1) %
          m.table.length = e.idx := succ_of_left hLpos hidx
      obtain ⟨i', hi's, hile'⟩ := hT.adj ((e.idx + (m.table.length - 1)) % m.table.length)
        (mod_lt_of_pos hLpos _) e.id (by rw [hsucc]; exact hslot)
        (by rw [distOf_of_entryOf hent]; omega)
      have hi'ne : i' ≠ e.id := huniq _ i' hleftpos hi's
      rw [distOf_of_entryOf hent] at hile'
      refine ⟨i', ?_, ?_⟩
      · rw [slotAt_set_ne (fun hc => hleftpos hc.symm)]
        exact hi's
      · rw [hdist0 i hine, hdist0 i' hi'ne]
        omega
  obtain ⟨z, hzlt, hzne, hznone⟩ := exists_empty_slot_ne hT (by omega) e.idx
  obtain ⟨u, huL, hupos⟩ := exists_offset hLpos hidx hzlt
  have hu1 : 1 ≤ u := by
    by_contra hc
    have hu0 : u = 0 := by omega
    rw [hu0, Nat.add_zero, Nat.mod_eq_of_lt hidx] at hupos
    exact hzne hupos.symm
  have hfl : ∃ t, t < m.table.length ∧ 1 + t < (m.table.set e.idx none).length ∧
      slotAt (m.table.set e.idx none)
        ((e.idx + 1 + t) % (m.table.set e.idx none).length) = none := by
    refine ⟨u - 1, by omega, ?_, ?_⟩
    · rw [List.length_set]; omega
    · rw [List.length_set]
      have harith : e.idx + 1 + (u - 1) = e.idx + u := by omega
      rw [harith, hupos, slotAt_set_ne hzne.symm]
      exact hznone
  have hfl' : ∃ t, t < (m.table.set e.idx none).length ∧
      1 + t < (m.table.set e.idx none).length ∧
      slotAt (m.table.set e.idx none)
        ((e.idx + 1 + t) % (m.table.set e.idx none).length) = none := by
    obtain ⟨t, ht1, ht2, ht3⟩ := hfl
    exact ⟨t, by rw [List.length_set]; omega, ht2, ht3⟩
  obtain ⟨hT', hlen', hsig'⟩ := shiftLoopSpec h (m.table.set e.idx none).length
    (m.items.filter (fun e'' => e''.id ≠ e.id)) (m.table.set e.idx none) e.idx hS hfl'
  have hunf : eraseById m e.id =
      ⟨(shiftLoop (m.items.filter (fun e'' => e''.id ≠ e.id)) (m.table.set e.idx none)
          e.idx m.table.length).1,
        (shiftLoop (m.items.filter (fun e'' => e''.id ≠ e.id)) (m.table.set e.idx none)
          e.idx m.table.length).2, m.nextId⟩ := by
    rw [eraseById, hent]
  have hlenlen : (m.table.set e.idx none).length = m.table.length := List.length_set _ _ _
  rw [hlenlen] at hT' hlen' hsig'
  have hitems : (eraseById m e.id).items =
      (shiftLoop (m.items.filter (fun e'' => e''.id ≠ e.id)) (m.table.set e.idx none)
        e.idx m.table.length).1 := by rw [hunf]
  have htable : (eraseById m e.id).table =
      (shiftLoop (m.items.filter (fun e'' => e''.id ≠ e.id)) (m.table.set e.idx none)
        e.idx m.table.length).2 := by rw [hunf]
  have hnid : (eraseById m e.id).nextId = m.nextId := by rw [hunf]
  have hlenfilter : (m.items.filter (fun e'' => e''.id ≠ e.id)).length + 1 =
      m.items.length := filter_ne_length hT.idsNodup he
  have hsizes : (eraseById m e.id).items.length + 1 = m.items.length := by
    rw [hitems, sig_project_length hsig']
    exact hlenfilter
  refine ⟨⟨?_, ?_, ?_, ?_⟩, ?_, hsizes, ?_, hnid⟩
  · rw [hitems, htable]
    exact hT'
  · rw [htable, hlen']
    exact hI.lenStart
  · rw [htable, hlen']
    have := hI.cap
    have h8 : 8388608 * (eraseById m e.id).items.length ≤ 8388608 * m.items.length := by
      refine Nat.mul_le_mul_left _ ?_
      omega
    omega
  · intro e' he'
    rw [hnid]
    rw [hitems] at he'
    have hidm : e'.id ∈ (m.items.filter (fun e'' => e''.id ≠ e.id)).map
        (fun e => e.id) := by
      rw [← sig_project_id hsig']
      exact List.mem_map_of_mem _ he'
    obtain ⟨e'', he'', heq⟩ := List.mem_map.mp hidm
    obtain ⟨hmm, _⟩ := (hmem0 e'').mp he''
    rw [← heq]
    exact hI.freshIds e'' hmm
  · show (eraseById m e.id).items.map (fun e => (e.key, e.value)) = _
    rw [hitems, sig_project_pair hsig']
    refine pairs_filter ?_
    intro e' he'
    constructor
    · intro hc
      have : e' = e := eq_of_id_mem hT.idsNodup he' he hc
      rw [this]
    · intro hc
      have : e' = e := eq_of_key_mem hT.keysNodup he' he hc
      rw [this]
  · rw [htable, hlen']

end HashMapModel

namespace HashMapModel

variable {K V : Type} [DecidableEq K]

theorem eraseKey_absent {h : K → Nat} {m : HM K V} {k : K}
    (habs : ∀ e ∈ m.items, e.key ≠ k) : eraseKey h m k = m := by
  rw [eraseKey, find_eq_none habs]

theorem eraseKey_present {h : K → Nat} {m : HM K V} (hI : Inv h m) {e : Entry K V}
    (he : e ∈ m.items) : eraseKey h m e.key = eraseById m e.id := by
  rw [eraseKey, find_eq_some hI.tinv he]

theorem setValue_id (m : HM K V) (k : K) (v : V) :
    ∀ e : Entry K V, (if e.key == k then { e with value := v } else e).id = e.id := by
  intro e; split <;> rfl

theorem entryOf_setValue (m : HM K V) (k : K) (v : V) (i : Nat) :
    entryOf (setValue m k v).items i =
      (entryOf m.items i).map (fun e => if e.key == k then { e with value := v } else e) :=
  entryOf_map_of_id (setValue_id m k v) i

theorem keyMatches_setValue (m : HM K V) (k : K) (v : V) (i : Nat) (k' : K) :
    keyMatches (setValue m k v).items i k' = keyMatches m.items i k' := by
  rw [keyMatches, entryOf_setValue, keyMatches]
  cases entryOf m.items i with
  | none => rfl
  | some e =>
    simp only [Option.map_some', Option.getD_some]
    split <;> rfl

theorem distOf_setValue (m : HM K V) (k : K) (v : V) (i : Nat) :
    distOf (setValue m k v).items i = distOf m.items i := by
  rw [distOf, entryOf_setValue, distOf]
  cases entryOf m.items i with
  | none => rfl
  | some e =>
    simp only [Option.map_some', Option.getD_some]
    split <;> rfl

theorem findLoop_congr {items items' : List (Entry K V)} {table : List (Option Nat)}
    {k : K} (hkm : ∀ i, keyMatches items' i k = keyMatches items i k) :
    ∀ fuel pos, findLoop items' table k pos fuel = findLoop items table k pos fuel := by
  intro fuel
  induction fuel with
  | zero => intro pos; rfl
  | succ fuel ih =>
    intro pos
    rw [findLoop, findLoop]
    cases slotAt table pos with
    | none => rfl
    | some i =>
      cases hkm2 : keyMatches items i k with
      | false =>
        have h2 : keyMatches items' i k = false := by rw [hkm i, hkm2]
        simp only [hkm2, h2, Bool.false_eq_true, if_false]
        exact ih _
      | true =>
        have h2 : keyMatches items' i k = true := by rw [hkm i, hkm2]
        simp only [hkm2, h2, if_true]

theorem find_setValue (h : K → Nat) (m : HM K V) (k : K) (v : V) (k' : K) :
    find h (setValue m k v) k' = find h m k' := by
  rw [find, find]
  exact findLoop_congr (fun i => keyMatches_setValue m k v i k') _ _

theorem setValue_map_key (m : HM K V) (k : K) (v : V) :
    (setValue m k v).items.map (fun e => e.key) = m.items.map (fun e => e.key) :=
  map_comp_eq_of_eq (fun e => by split <;> rfl) m.items

theorem setValue_map_id' (m : HM K V) (k : K) (v : V) :
    (setValue m k v).items.map (fun e => e.id) = m.items.map (fun e => e.id) :=
  map_comp_eq_of_eq (fun e => by split <;> rfl) m.items

theorem setValueSpec {h : K → Nat} {m : HM K V} (hI : Inv h m) (k : K) (v : V) :
    Inv h (setValue m k v) ∧
    (setValue m k v).table = m.table ∧
    (setValue m k v).items.length = m.items.length := by
  have hT := hI.tinv
  refine ⟨⟨⟨hT.lenPos, ?_, ?_, ?_, ?_, ?_⟩, hI.lenStart, ?_, ?_⟩, rfl, List.length_map _ _⟩
  · rw [setValue_map_id']; exact hT.idsNodup
  · rw [setValue_map_key]; exact hT.keysNodup
  · intro e' he'
    simp only [setValue, List.mem_map] at he'
    obtain ⟨e, hemem, rfl⟩ := he'
    obtain ⟨h1, h2, h3, h4⟩ := hT.complete e hemem
    split <;> exact ⟨h1, h2, h3, h4⟩
  · intro j i hji
    obtain ⟨e, hemem, hied, hidx⟩ := hT.sound j i hji
    refine ⟨if e.key == k then { e with value := v } else e, ?_, ?_, ?_⟩
    · simp only [setValue, List.mem_map]
      exact ⟨e, hemem, rfl⟩
    · split <;> simpa using hied
    · split <;> simpa using hidx
  · refine adjOK_congr ?_ hT.adj
    intro j i hji
    exact distOf_setValue m k v i
  · simp only [setValue, List.length_map]
    exact hI.cap
  · intro e' he'
    simp only [setValue, List.mem_map] at he'
    obtain ⟨e, hemem, rfl⟩ := he'
    have := hI.freshIds e hemem
    split <;> simpa using this

theorem atVal_present {h : K → Nat} {m : HM K V} (hT : TInv h m.items m.table)
    {e : Entry K V} (he : e ∈ m.items) : atVal h m e.key = some e.value := by
  rw [atVal, find_eq_some hT he]
  show (entryOf m.items e.id).map (fun e => e.value) = some e.value
  rw [entryOf_eq_some_of_mem hT.idsNodup he]
  rfl

theorem atVal_absent {h : K → Nat} {m : HM K V} {k : K}
    (habs : ∀ e ∈ m.items, e.key ≠ k) : atVal h m k = none := by
  rw [atVal, find_eq_none habs]

theorem atVal_of_mem_pairs {h : K → Nat} {m : HM K V} (hT : TInv h m.items m.table)
    {k : K} {v : V} (hm : (k, v) ∈ toPairs m) : atVal h m k = some v := by
  rw [toPairs] at hm
  obtain ⟨e, hemem, heq⟩ := List.mem_map.mp hm
  have hk : e.key = k := congrArg Prod.fst heq
  have hv : e.value = v := congrArg Prod.snd heq
  rw [← hk, atVal_present hT hemem, hv]

theorem clearFuelSpec {h : K → Nat} :
    ∀ (n : Nat) (m : HM K V), Inv h m → m.items.length ≤ n →
      Inv h (clearFuel n m) ∧ (clearFuel n m).items = [] ∧
      (clearFuel n m).table.length = m.table.length := by
  intro n
  induction n with
  | zero =>
    intro m hI hlen
    have : m.items = [] := List.eq_nil_of_length_eq_zero (by omega)
    rw [clearFuel]
    exact ⟨hI, this, rfl⟩
  | succ n ih =>
    intro m hI hlen
    cases hitems : m.items with
    | nil =>
      rw [clearFuel, hitems]
      exact ⟨hI, hitems, rfl⟩
    | cons e rest =>
      have hemem : e ∈ m.items := by rw [hitems]; exact List.mem_cons_self _ _
      obtain ⟨hI', _, hsz', hlen', _⟩ := eraseByIdSpec hI hemem
      have hsz2 : (eraseById m e.id).items.length ≤ n := by
        rw [hitems] at hsz'
        rw [List.length_cons] at hsz'
        rw [hitems, List.length_cons] at hlen
        omega
      obtain ⟨hIf, hif, hlf⟩ := ih (eraseById m e.id) hI' hsz2
      rw [clearFuel, hitems]
      exact ⟨hIf, hif, by rw [hlf, hlen']⟩

theorem clearSpec {h : K → Nat} {m : HM K V} (hI : Inv h m) :
    Inv h (clear m) ∧ (clear m).items = [] ∧ (clear m).table.length = m.table.length := by
  rw [clear]
  exact clearFuelSpec m.items.length m hI (Nat.le_refl _)

theorem insert_eq_emplace {h : K → Nat} {m : HM K V} {x : K × V} (hI : Inv h m)
    (hfr : ∀ e ∈ m.items, e.key ≠ x.1)
    (hcap : 8388608 * (m.items.length + 1) < 5033165 * m.table.length) :
    insert h m x = emplaceProbe h m x := by
  have hfind : find h m x.1 = none := find_eq_none hfr
  have h3 : m.items.length + 3 = (m.items.length + 2) + 1 := rfl
  rw [insert, h3, insertFuel_eq_fresh' hfind, if_pos hcap]

theorem copyFromSpec {h : K → Nat} {src : HM K V} (hI : Inv h src) :
    Inv h (copyFrom h src) ∧ toPairs (copyFrom h src) = toPairs src ∧
    (copyFrom h src).table.length = src.table.length ∧
    (copyFrom h src).items.length = src.items.length := by
  have hbase : Inv h (⟨[], List.replicate src.table.length none, 0⟩ : HM K V) :=
    baseInv h hI.lenStart 0
  have hfold : copyFrom h src =
      (src.items.map (fun e => (e.key, e.value))).foldl (fun acc x => insert h acc x)
        ⟨[], List.replicate src.table.length none, 0⟩ := by
    rw [copyFrom, List.foldl_map]
  have hg : ∀ (m' : HM K V) (x : K × V), Inv h m' → (∀ e ∈ m'.items, e.key ≠ x.1) →
      8388608 * (m'.items.length + 1) < 5033165 * m'.table.length →
      insert h m' x = emplaceProbe h m' x := by
    intro m' x hI' hfr hcap'
    exact insert_eq_emplace hI' hfr hcap'
  have hnd : ((([] : List (Entry K V)).map (fun e => e.key)) ++
      (src.items.map (fun e => (e.key, e.value))).map Prod.fst).Nodup := by
    rw [List.map_nil, List.nil_append, List.map_map]
    exact hI.tinv.keysNodup
  have hcapfold : 8388608 * (([] : List (Entry K V)).length +
      (src.items.map (fun e => (e.key, e.value))).length) <
      5033165 * (List.replicate src.table.length (none : Option Nat)).length := by
    rw [List.length_nil, List.length_map, List.length_replicate, Nat.zero_add]
    exact hI.cap
  obtain ⟨hIf, hpf, hlf, hsf, _⟩ :=
    refillSpec (fun acc x => insert h acc x) hg _ _ hbase hnd hcapfold
  rw [← hfold] at hIf hpf hlf hsf
  refine ⟨hIf, ?_, ?_, ?_⟩
  · rw [hpf]
    simp [toPairs]
  · rw [hlf, List.length_replicate]
  · rw [hsf, List.length_nil, List.length_map, Nat.zero_add]

theorem copyAssignSpec {h : K → Nat} (dst : HM K V) {src : HM K V} (hI : Inv h src) :
    Inv h (copyAssign h dst src false) ∧
    toPairs (copyAssign h dst src false) = toPairs src ∧
    (copyAssign h dst src false).table.length = src.table.length ∧
    (copyAssign h dst src false).items.length = src.items.length := by
  have hbase : Inv h (⟨[], List.replicate src.table.length none, dst.nextId⟩ : HM K V) :=
    baseInv h hI.lenStart dst.nextId
  have hfold : copyAssign h dst src false =
      (src.items.map (fun e => (e.key, e.value))).foldl (fun acc x => insert h acc x)
        ⟨[], List.replicate src.table.length none, dst.nextId⟩ := by
    rw [copyAssign]
    simp only [Bool.false_eq_true, if_false]
    rw [List.foldl_map]
  have hg : ∀ (m' : HM K V) (x : K × V), Inv h m' → (∀ e ∈ m'.items, e.key ≠ x.1) →
      8388608 * (m'.items.length + 1) < 5033165 * m'.table.length →
      insert h m' x = emplaceProbe h m' x := by
    intro m' x hI' hfr hcap'
    exact insert_eq_emplace hI' hfr hcap'
  have hnd : ((([] : List (Entry K V)).map (fun e => e.key)) ++
      (src.items.map (fun e => (e.key, e.value))).map Prod.fst).Nodup := by
    rw [List.map_nil, List.nil_append, List.map_map]
    exact hI.tinv.keysNodup
  have hcapfold : 8388608 * (([] : List (Entry K V)).length +
      (src.items.map (fun e => (e.key, e.value))).length) <
      5033165 * (List.replicate src.table.length (none : Option Nat)).length := by
    rw [List.length_nil, List.length_map, List.length_replicate, Nat.zero_add]
    exact hI.cap
  obtain ⟨hIf, hpf, hlf, hsf, _⟩ :=
    refillSpec (fun acc x => insert h acc x) hg _ _ hbase hnd hcapfold
  rw [← hfold] at hIf hpf hlf hsf
  refine ⟨hIf, ?_, ?_, ?_⟩
  · rw [hpf]
    simp [toPairs]
  · rw [hlf, List.length_replicate]
  · rw [hsf, List.length_nil, List.length_map, Nat.zero_add]

theorem copyAssign_same {h : K → Nat} (dst src : HM K V) :
    copyAssign h dst src true = dst := by
  rw [copyAssign]
  simp

theorem emptyInv (h : K → Nat) : Inv h (emptyHM : HM K V) :=
  baseInv h (Nat.le_refl 37) 0

theorem reachable_inv {h : K → Nat} {m : HM K V} (hR : Reachable h m) : Inv h m := by
  induction hR with
  | empty => exact emptyInv h
  | insert x hR ih =>
    rename_i m'
    by_cases hx : ∃ e ∈ m'.items, e.key = x.1
    · obtain ⟨e, he, hk⟩ := hx
      rw [insert_dup ih he hk]
      exact ih
    · push_neg at hx
      exact (insert_fresh ih hx).1
  | eraseKey k hR ih =>
    rename_i m'
    by_cases hx : ∃ e ∈ m'.items, e.key = k
    · obtain ⟨e, he, hk⟩ := hx
      rw [← hk, eraseKey_present ih he]
      exact (eraseByIdSpec ih he).1
    · push_neg at hx
      rw [eraseKey_absent hx]
      exact ih
  | eraseIter e hR hmem ih =>
    exact (eraseByIdSpec ih hmem).1
  | setVal k v hR ih =>
    exact (setValueSpec ih k v).1
  | clear hR ih =>
    exact (clearSpec ih).1
  | copy hR ih =>
    exact (copyFromSpec ih).1
  | assign b hR hR' ih ih' =>
    cases b with
    | false => exact (copyAssignSpec _ ih').1
    | true =>
      rw [copyAssign_same]
      exact ih

end HashMapModel

namespace HashMapModel

variable {K V : Type} [DecidableEq K]

theorem hasDivisorFrom_sound :
    ∀ (fuel d n : Nat), hasDivisorFrom n d fuel = true →
      ∃ d', d ≤ d' ∧ d' * d' ≤ n ∧ n % d' = 0 := by
  intro fuel
  induction fuel with
  | zero => intro d n hc; exact Bool.noConfusion hc
  | succ fuel ih =>
    intro d n hc
    rw [hasDivisorFrom] at hc
    by_cases h1 : d * d ≤ n
    · rw [if_pos h1] at hc
      by_cases h2 : n % d = 0
      · exact ⟨d, Nat.le_refl _, h1, h2⟩
      · have hb : (n % d == 0) = false := by simpa using h2
        simp only [hb, Bool.false_eq_true, if_false] at hc
        obtain ⟨d', hd1, hd2, hd3⟩ := ih (d + 1) n hc
        exact ⟨d', by omega, hd2, hd3⟩
    · rw [if_neg h1] at hc
      exact Bool.noConfusion hc

theorem hasDivisorFrom_complete :
    ∀ (fuel d n d' : Nat), d ≤ d' → d' * d' ≤ n → n % d' = 0 → d' < d + fuel →
      hasDivisorFrom n d fuel = true := by
  intro fuel
  induction fuel with
  | zero => intro d n d' h1 h2 h3 h4; omega
  | succ fuel ih =>
    intro d n d' h1 h2 h3 h4
    rw [hasDivisorFrom]
    have hdd : d * d ≤ n := le_trans (Nat.mul_le_mul h1 h1) h2
    rw [if_pos hdd]
    by_cases h5 : n % d = 0
    · simp [h5]
    · have hb : (n % d == 0) = false := by simpa using h5
      simp only [hb, Bool.false_eq_true, if_false]
      have hne : d ≠ d' := fun hcc => h5 (hcc ▸ h3)
      exact ih (d + 1) n d' (by omega) h2 h3 (by omega)

/-- The trial-division primality test of rehash_if_needed agrees with
mathematical primality for all candidates ≥ 2. -/
theorem isPrimeCpp_iff {n : Nat} (hn : 2 ≤ n) : isPrimeCpp n = true ↔ Nat.Prime n := by
  rw [isPrimeCpp, Bool.not_eq_true']
  constructor
  · intro hfalse
    rw [Nat.prime_def_le_sqrt]
    refine ⟨hn, ?_⟩
    intro m hm2 hmsqrt hdvd
    have hmm : m * m ≤ n := Nat.le_sqrt.mp hmsqrt
    have hmod : n % m = 0 := Nat.dvd_iff_mod_eq_zero.mp hdvd
    have hmn : m ≤ m * m := Nat.le_mul_of_pos_left m (by omega)
    have htrue := hasDivisorFrom_complete n 2 n m hm2 hmm hmod (by omega)
    rw [hfalse] at htrue
    exact Bool.noConfusion htrue
  · intro hp
    cases hb : hasDivisorFrom n 2 n with
    | false => rfl
    | true =>
      obtain ⟨d', hd1, hd2, hd3⟩ := hasDivisorFrom_sound n 2 n hb
      have hdvd : d' ∣ n := Nat.dvd_iff_mod_eq_zero.mpr hd3
      rw [Nat.prime_def_le_sqrt] at hp
      exact absurd hdvd (hp.2 d' hd1 (Nat.le_sqrt.mpr hd2))

theorem findPrimeFrom_spec :
    ∀ (fuel start : Nat), 2 ≤ start →
      (∃ p, Nat.Prime p ∧ start ≤ p ∧ p < start + fuel) →
      Nat.Prime (findPrimeFrom start fuel) ∧ start ≤ findPrimeFrom start fuel ∧
        ∀ q, Nat.Prime q → start ≤ q → findPrimeFrom start fuel ≤ q := by
  intro fuel
  induction fuel with
  | zero =>
    intro start h2 hex
    obtain ⟨p, _, hp1, hp2⟩ := hex
    omega
  | succ fuel ih =>
    intro start h2 hex
    rw [findPrimeFrom]
    by_cases hp : isPrimeCpp start = true
    · rw [if_pos hp]
      exact ⟨(isPrimeCpp_iff h2).mp hp, Nat.le_refl _, fun q _ hge => hge⟩
    · rw [if_neg hp]
      have hnp : ¬ Nat.Prime start := fun hc => hp ((isPrimeCpp_iff h2).mpr hc)
      obtain ⟨p, hpp, hp1, hp2⟩ := hex
      have hpne : p ≠ start := fun hc => hnp (hc ▸ hpp)
      obtain ⟨ha, hb, hc⟩ := ih (start + 1) (by omega) ⟨p, hpp, by omega, by omega⟩
      refine ⟨ha, by omega, ?_⟩
      intro q hq hge
      rcases Nat.eq_or_lt_of_le hge with he | hl
      · exact absurd (he ▸ hq) hnp
      · exact hc q hq (by omega)

/-- The new bucket count of rehash_if_needed is the smallest prime ≥ its
starting candidate 2 * table_.size(); the unbounded loop terminates within
the modelled fuel by Bertrand's postulate. -/
theorem findPrime_least {n : Nat} (hn : 2 ≤ n) :
    Nat.Prime (findPrime n) ∧ n ≤ findPrime n ∧
      ∀ q, Nat.Prime q → n ≤ q → findPrime n ≤ q := by
  obtain ⟨p, hp, h1, h2⟩ := Nat.exists_prime_lt_and_le_two_mul n (by omega)
  exact findPrimeFrom_spec (n + 2) n hn ⟨p, hp, by omega, by omega⟩

end HashMapModel

namespace HashMapModel

variable {K V : Type} [DecidableEq K]

theorem findPrime_eq {n p : Nat} (hn : 2 ≤ n) (hp : Nat.Prime p) (hge : n ≤ p)
    (hmin : ∀ q, n ≤ q → q < p → ¬(Nat.Prime q)) : findPrime n = p := by
  obtain ⟨h1, h2, h3⟩ := findPrime_least hn
  have hle : findPrime n ≤ p := h3 p hp hge
  rcases Nat.eq_or_lt_of_le hle with he | hl
  · exact he
  · exact absurd h1 (hmin _ h2 hl)

theorem lenAfter_stable :
    ∀ (d a q : Nat), lenAfter a = q → 8388608 * (a + d) < 5033165 * q →
      lenAfter (a + d) = q := by
  intro d
  induction d with
  | zero => intro a q h hb; exact h
  | succ d ih =>
    intro a q h hb
    have hprev : lenAfter (a + d) = q := ih a q h (by omega)
    have harith : a + (d + 1) = (a + d) + 1 := by omega
    rw [harith, lenAfter, hprev, if_pos (show 8388608 * (a + d + 1) < 5033165 * q by omega)]

theorem lenAfter_stable2 (a b q : Nat) (hab : a ≤ b) (h : lenAfter a = q)
    (hb : 8388608 * b < 5033165 * q) : lenAfter b = q := by
  obtain ⟨d, rfl⟩ : ∃ d, b = a + d := ⟨b - a, by omega⟩
  exact lenAfter_stable d a q h hb

theorem lenAfter_jump (a b q q2 : Nat) (hb : b = a + 1) (h : lenAfter a = q)
    (ht : 5033165 * q ≤ 8388608 * b) (hq2 : findPrime (2 * q) = q2) :
    lenAfter b = q2 := by
  subst hb
  rw [lenAfter, h, if_neg (show ¬(8388608 * (a + 1) < 5033165 * q) by omega), hq2]

/-- The probe-table growth trajectory of 13475203 insertions of fresh keys:
20 table sizes, each the least prime at least twice its predecessor. -/
theorem lenAfter_final : lenAfter 13475203 = 22458671 := by
  have j0 : lenAfter 0 = 37 := rfl
  have f1 : findPrime (2 * 37) = 79 :=
    findPrime_eq (by norm_num) (by norm_num) (by norm_num)
      (by intro x hx1 hx2; interval_cases x <;> norm_num)
  have s1 : lenAfter 22 = 37 :=
    lenAfter_stable2 0 22 37 (by norm_num) j0 (by norm_num)
  have j1 : lenAfter 23 = 79 :=
    lenAfter_jump 22 23 37 79 (by norm_num) s1 (by norm_num) f1
  have f2 : findPrime (2 * 79) = 163 :=
    findPrime_eq (by norm_num) (by norm_num) (by norm_num)
      (by intro x hx1 hx2; interval_cases x <;> norm_num)
  have s2 : lenAfter 47 = 79 :=
    lenAfter_stable2 23 47 79 (by norm_num) j1 (by norm_num)
  have j2 : lenAfter 48 = 163 :=
    lenAfter_jump 47 48 79 163 (by norm_num) s2 (by norm_num) f2
  have f3 : findPrime (2 * 163) = 331 :=
    findPrime_eq (by norm_num) (by norm_num) (by norm_num)
      (by intro x hx1 hx2; interval_cases x <;> norm_num)
  have s3 : lenAfter 97 = 163 :=
    lenAfter_stable2 48 97 163 (by norm_num) j2 (by norm_num)
  have j3 : lenAfter 98 = 331 :=
    lenAfter_jump 97 98 163 331 (by norm_num) s3 (by norm_num) f3
  have f4 : findPrime (2 * 331) = 673 :=
    findPrime_eq (by norm_num) (by norm_num) (by norm_num)
      (by intro x hx1 hx2; interval_cases x <;> norm_num)
  have s4 : lenAfter 198 = 331 :=
    lenAfter_stable2 98 198 331 (by norm_num) j3 (by norm_num)
  have j4 : lenAfter 199 = 673 :=
    lenAfter_jump 198 199 331 673 (by norm_num) s4 (by norm_num) f4
  have f5 : findPrime (2 * 673) = 1361 :=
    findPrime_eq (by norm_num) (by norm_num) (by norm_num)
      (by intro x hx1 hx2; interval_cases x <;> norm_num)
  have s5 : lenAfter 403 = 673 :=
    lenAfter_stable2 199 403 673 (by norm_num) j4 (by norm_num)
  have j5 : lenAfter 404 = 1361 :=
    lenAfter_jump 403 404 673 1361 (by norm_num) s5 (by norm_num) f5
  have f6 : findPrime (2 * 1361) = 2729 :=
    findPrime_eq (by norm_num) (by norm_num) (by norm_num)
      (by intro x hx1 hx2; interval_cases x <;> norm_num)
  have s6 : lenAfter 816 = 1361 :=
    lenAfter_stable2 404 816 1361 (by norm_num) j5 (by norm_num)
  have j6 : lenAfter 817 = 2729 :=
    lenAfter_jump 816 817 1361 2729 (by norm_num) s6 (by norm_num) f6
  have f7 : findPrime (2 * 2729) = 5471 :=
    findPrime_eq (by norm_num) (by norm_num) (by norm_num)
      (by intro x hx1 hx2; interval_cases x <;> norm_num)
  have s7 : lenAfter 1637 = 2729 :=
    lenAfter_stable2 817 1637 2729 (by norm_num) j6 (by norm_num)
  have j7 : lenAfter 1638 = 5471 :=
    lenAfter_jump 1637 1638 2729 5471 (by norm_num) s7 (by norm_num) f7
  have f8 : findPrime (2 * 5471) = 10949 :=
    findPrime_eq (by norm_num) (by norm_num) (by norm_num)
      (by intro x hx1 hx2; interval_cases x <;> norm_num)
  have s8 : lenAfter 3282 = 5471 :=
    lenAfter_stable2 1638 3282 5471 (by norm_num) j7 (by norm_num)
  have j8 : lenAfter 3283 = 10949 :=
    lenAfter_jump 3282 3283 5471 10949 (by norm_num) s8 (by norm_num) f8
  have f9 : findPrime (2 * 10949) = 21911 :=
    findPrime_eq (by norm_num) (by norm_num) (by norm_num)
      (by intro x hx1 hx2; interval_cases x <;> norm_num)
  have s9 : lenAfter 6569 = 10949 :=
    lenAfter_stable2 3283 6569 10949 (by norm_num) j8 (by norm_num)
  have j9 : lenAfter 6570 = 21911 :=
    lenAfter_jump 6569 6570 10949 21911 (by norm_num) s9 (by norm_num) f9
  have f10 : findPrime (2 * 21911) = 43853 :=
    findPrime_eq (by norm_num) (by norm_num) (by norm_num)
      (by intro x hx1 hx2; interval_cases x <;> norm_num)
  have s10 : lenAfter 13146 = 21911 :=
    lenAfter_stable2 6570 13146 21911 (by norm_num) j9 (by norm_num)
  have j10 : lenAfter 13147 = 43853 :=
    lenAfter_jump 13146 13147 21911 43853 (by norm_num) s10 (by norm_num) f10
  have f11 : findPrime (2 * 43853) = 87719 :=
    findPrime_eq (by norm_num) (by norm_num) (by norm_num)
      (by intro x hx1 hx2; interval_cases x <;> norm_num)
  have s11 : lenAfter 26311 = 43853 :=
    lenAfter_stable2 13147 26311 43853 (by norm_num) j10 (by norm_num)
  have j11 : lenAfter 26312 = 87719 :=
    lenAfter_jump 26311 26312 43853 87719 (by norm_num) s11 (by norm_num) f11
  have f12 : findPrime (2 * 87719) = 175447 :=
    findPrime_eq (by norm_num) (by norm_num) (by norm_num)
      (by intro x hx1 hx2; interval_cases x <;> norm_num)
  have s12 : lenAfter 52631 = 87719 :=
    lenAfter_stable2 26312 52631 87719 (by norm_num) j11 (by norm_num)
  have j12 : lenAfter 52632 = 175447 :=
    lenAfter_jump 52631 52632 87719 175447 (by norm_num) s12 (by norm_num) f12
  have f13 : findPrime (2 * 175447) = 350899 :=
    findPrime_eq (by norm_num) (by norm_num) (by norm_num)
      (by intro x hx1 hx2; interval_cases x <;> norm_num)
  have s13 : lenAfter 105268 = 175447 :=
    lenAfter_stable2 52632 105268 175447 (by norm_num) j12 (by norm_num)
  have j13 : lenAfter 105269 = 350899 :=
    lenAfter_jump 105268 105269 175447 350899 (by norm_num) s13 (by norm_num) f13
  have f14 : findPrime (2 * 350899) = 701819 :=
    findPrime_eq (by norm_num) (by norm_num) (by norm_num)
      (by intro x hx1 hx2; interval_cases x <;> norm_num)
  have s14 : lenAfter 210539 = 350899 :=
    lenAfter_stable2 105269 210539 350899 (by norm_num) j13 (by norm_num)
  have j14 : lenAfter 210540 = 701819 :=
    lenAfter_jump 210539 210540 350899 701819 (by norm_num) s14 (by norm_num) f14
  have f15 : findPrime (2 * 701819) = 1403641 :=
    findPrime_eq (by norm_num) (by norm_num) (by norm_num)
      (by intro x hx1 hx2; interval_cases x <;> norm_num)
  have s15 : lenAfter 421091 = 701819 :=
    lenAfter_stable2 210540 421091 701819 (by norm_num) j14 (by norm_num)
  have j15 : lenAfter 421092 = 1403641 :=
    lenAfter_jump 421091 421092 701819 1403641 (by norm_num) s15 (by norm_num) f15
  have f16 : findPrime (2 * 1403641) = 2807303 :=
    findPrime_eq (by norm_num) (by norm_num) (by norm_num)
      (by intro x hx1 hx2; interval_cases x <;> norm_num)
  have s16 : lenAfter 842184 = 1403641 :=
    lenAfter_stable2 421092 842184 1403641 (by norm_num) j15 (by norm_num)
  have j16 : lenAfter 842185 = 2807303 :=
    lenAfter_jump 842184 842185 1403641 2807303 (by norm_num) s16 (by norm_num) f16
  have f17 : findPrime (2 * 2807303) = 5614657 :=
    findPrime_eq (by norm_num) (by norm_num) (by norm_num)
      (by intro x hx1 hx2; interval_cases x <;> norm_num)
  have s17 : lenAfter 1684381 = 2807303 :=
    lenAfter_stable2 842185 1684381 2807303 (by norm_num) j16 (by norm_num)
  have j17 : lenAfter 1684382 = 5614657 :=
    lenAfter_jump 1684381 1684382 2807303 5614657 (by norm_num) s17 (by norm_num) f17
  have f18 : findPrime (2 * 5614657) = 11229331 :=
    findPrime_eq (by norm_num) (by norm_num) (by norm_num)
      (by intro x hx1 hx2; interval_cases x <;> norm_num)
  have s18 : lenAfter 3368794 = 5614657 :=
    lenAfter_stable2 1684382 3368794 5614657 (by norm_num) j17 (by norm_num)
  have j18 : lenAfter 3368795 = 11229331 :=
    lenAfter_jump 3368794 3368795 5614657 11229331 (by norm_num) s18 (by norm_num) f18
  have f19 : findPrime (2 * 11229331) = 22458671 :=
    findPrime_eq (by norm_num) (by norm_num) (by norm_num)
      (by intro x hx1 hx2; interval_cases x <;> norm_num)
  have s19 : lenAfter 6737598 = 11229331 :=
    lenAfter_stable2 3368795 6737598 11229331 (by norm_num) j18 (by norm_num)
  have j19 : lenAfter 6737599 = 22458671 :=
    lenAfter_jump 6737598 6737599 11229331 22458671 (by norm_num) s19 (by norm_num) f19
  exact lenAfter_stable2 6737599 13475203 22458671 (by norm_num) j19 (by norm_num)

end HashMapModel

namespace HashMapModel

variable {K V : Type} [DecidableEq K]

/-- The concrete growth trajectory is realised by actual insertions: after
n inserts of the distinct keys 0..n-1 the map holds exactly those keys in
order and its table length follows lenAfter. -/
theorem insertRange_spec : ∀ n : Nat, Inv idHash (insertRange n) ∧
    toPairs (insertRange n) = (List.range n).map (fun i => (i, 0)) ∧
    (insertRange n).items.length = n ∧
    (insertRange n).table.length = lenAfter n := by
  intro n
  induction n with
  | zero =>
    refine ⟨emptyInv idHash, rfl, rfl, ?_⟩
    show (List.replicate 37 (none : Option Nat)).length = lenAfter 0
    rw [List.length_replicate]
    rfl
  | succ n ih =>
    obtain ⟨hI, hp, hs, hl⟩ := ih
    have hkeys : (insertRange n).items.map (fun e => e.key) = List.range n := by
      rw [← pairs_project_fst, hp, List.map_map]
      have hcmp : (Prod.fst ∘ fun i : Nat => ((i, 0) : Nat × Nat)) = id := rfl
      rw [hcmp, List.map_id]
    have hfr : ∀ e ∈ (insertRange n).items, e.key ≠ ((n, 0) : Nat × Nat).1 := by
      intro e he hc
      have hc' : e.key = n := hc
      have hmem : e.key ∈ (insertRange n).items.map (fun e => e.key) :=
        List.mem_map_of_mem _ he
      rw [hkeys, List.mem_range] at hmem
      omega
    have hins : insertRange (n + 1) = insert idHash (insertRange n) (n, 0) := rfl
    obtain ⟨hI', hp', hs', hl'⟩ := insert_fresh hI hfr
    rw [hins]
    refine ⟨hI', ?_, ?_, ?_⟩
    · rw [hp', hp, List.range_succ, List.map_append]
      rfl
    · rw [hs', hs]
    · rw [hl', hs, hl, lenAfter]

theorem insertRange_reachable : ∀ n : Nat, Reachable idHash (insertRange n) := by
  intro n
  induction n with
  | zero => exact Reachable.empty
  | succ n ih => exact Reachable.insert (n, 0) ih

/-- Folding insert over a list of pairs whose keys are fresh and pairwise
distinct appends exactly those pairs to the iteration order. -/
theorem foldl_insert_spec {h : K → Nat} :
    ∀ (ps : List (K × V)) (m : HM K V), Inv h m →
      ((m.items.map (fun e => e.key)) ++ ps.map Prod.fst).Nodup →
      Inv h (ps.foldl (insert h) m) ∧
      toPairs (ps.foldl (insert h) m) = toPairs m ++ ps := by
  intro ps
  induction ps with
  | nil =>
    intro m hI hnd
    rw [List.foldl_nil, List.append_nil]
    exact ⟨hI, rfl⟩
  | cons x rest ih =>
    intro m hI hnd
    have hfr : ∀ e ∈ m.items, e.key ≠ x.1 := by
      intro e he hc
      have hx1 : x.1 ∈ (m.items.map (fun e => e.key)) := by
        rw [← hc]
        exact List.mem_map_of_mem _ he
      have hx2 : x.1 ∈ (x :: rest).map Prod.fst := by
        rw [List.map_cons]
        exact List.mem_cons_self _ _
      exact (List.nodup_append.mp hnd).2.2 hx1 hx2
    obtain ⟨hI', hp', hs', _⟩ := insert_fresh hI hfr
    have hkeys' : (insert h m x).items.map (fun e => e.key) =
        (m.items.map (fun e => e.key)) ++ [x.1] := by
      rw [← pairs_project_fst, hp', List.map_append, pairs_project_fst]
      rfl
    have hnd' : (((insert h m x).items.map (fun e => e.key)) ++
        rest.map Prod.fst).Nodup := by
      rw [hkeys', List.append_assoc]
      have : ([x.1] ++ rest.map Prod.fst) = (x :: rest).map Prod.fst := by
        rw [List.map_cons]
        rfl
      rw [this]
      exact hnd
    obtain ⟨hIf, hpf⟩ := ih (insert h m x) hI' hnd'
    rw [List.foldl_cons]
    refine ⟨hIf, ?_⟩
    rw [hpf, hp', List.append_assoc]
    rfl

/-- Writing through the reference returned by operator[] / find rewrites
exactly the pairs carrying that key. -/
theorem toPairs_setValue (m : HM K V) (k : K) (w : V) :
    toPairs (setValue m k w) =
      (toPairs m).map (fun p => if p.1 = k then (p.1, w) else p) := by
  rw [toPairs, setValue, toPairs, List.map_map, List.map_map]
  refine List.map_congr_left ?_
  intro e _
  show (fun e => ((e.key, e.value) : K × V))
      (if e.key == k then { e with value := w } else e) =
    (fun p : K × V => if p.1 = k then (p.1, w) else p) (e.key, e.value)
  by_cases hc : e.key = k
  · subst hc
    simp
  · have hb : (e.key == k) = false := by simpa using hc
    simp [hb, hc]

theorem mem_pairs_setValue {m : HM K V} {k : K} {v : V} (w : V)
    (hm : (k, v) ∈ toPairs m) : (k, w) ∈ toPairs (setValue m k w) := by
  rw [toPairs_setValue]
  have := List.mem_map_of_mem (fun p : K × V => if p.1 = k then (p.1, w) else p) hm
  simpa using this

end HashMapModel

namespace HashMapModel

/-- The pairs (0,100), (1,101), ..., (24,124): 25 distinct keys, enough to
cross the first growth rehash (triggered at the 23rd insertion). -/
def c1Pairs : List (Nat × Nat) := (List.range 25).map (fun i => (i, i + 100))

/-- C1: inserting any finite sequence of pairwise-distinct keys into a fresh
empty map — including sequences long enough to trigger growth rehashes —
gives size() equal to the number of insertions, leaves every inserted key
findable (at returns its original value unchanged), and iterating from
begin() to end() yields exactly the inserted pairs in insertion order. -/
theorem C1_insert_sequence {K V : Type} [DecidableEq K] (h : K → Nat)
    (ps : List (K × V)) (hnd : (ps.map Prod.fst).Nodup) :
    size (ps.foldl (insert h) emptyHM) = ps.length ∧
    toPairs (ps.foldl (insert h) emptyHM) = ps ∧
    ∀ p ∈ ps, atVal h (ps.foldl (insert h) emptyHM) p.1 = some p.2 := by
  have hnd' : ((([] : List (Entry K V)).map (fun e => e.key)) ++ ps.map Prod.fst).Nodup := by
    rw [List.map_nil, List.nil_append]
    exact hnd
  obtain ⟨hI, hp⟩ := foldl_insert_spec ps emptyHM (emptyInv h) hnd'
  have hp2 : toPairs (ps.foldl (insert h) emptyHM) = ps := by
    rw [hp]
    rfl
  have hsz : size (ps.foldl (insert h) emptyHM) = ps.length := by
    have hlen := congrArg List.length hp2
    rw [toPairs, List.length_map] at hlen
    exact hlen
  refine ⟨hsz, hp2, ?_⟩
  intro p hpmem
  refine atVal_of_mem_pairs hI.tinv ?_
  rw [hp2]
  exact hpmem

/-- C1 witness: the 25 concrete insertions of c1Pairs. -/
theorem C1_witness :
    (c1Pairs.map Prod.fst).Nodup ∧
    (size (c1Pairs.foldl (insert idHash) emptyHM) = c1Pairs.length ∧
     toPairs (c1Pairs.foldl (insert idHash) emptyHM) = c1Pairs ∧
     ∀ p ∈ c1Pairs, atVal idHash (c1Pairs.foldl (insert idHash) emptyHM) p.1 = some p.2) :=
  ⟨by decide, C1_insert_sequence idHash c1Pairs (by decide)⟩

/-- C2: inserting a key that is already present is a complete no-op — the
resulting state equals the old state, so the existing value (at(k) = v1),
size(), iteration order, every other entry and the probe-table capacity are
all unchanged, and in particular no rehash occurs. -/
theorem C2_insert_present {K V : Type} [DecidableEq K] (h : K → Nat) {m : HM K V}
    (hR : Reachable h m) {k : K} {v1 : V} (hmem : (k, v1) ∈ toPairs m) (v2 : V) :
    insert h m (k, v2) = m ∧ atVal h m k = some v1 := by
  have hI := reachable_inv hR
  obtain ⟨e, hemem, heq⟩ := List.mem_map.mp hmem
  have hk : e.key = k := congrArg Prod.fst heq
  refine ⟨insert_dup hI hemem hk, ?_⟩
  exact atVal_of_mem_pairs hI.tinv hmem

/-- C2 witness: insert(1,10) then insert(1,20) leaves the map with value 10. -/
theorem C2_witness :
    Reachable idHash (insert idHash (emptyHM : HM Nat Nat) (1, 10)) ∧
    (1, 10) ∈ toPairs (insert idHash (emptyHM : HM Nat Nat) (1, 10)) ∧
    (insert idHash (insert idHash (emptyHM : HM Nat Nat) (1, 10)) (1, 20) =
      insert idHash emptyHM (1, 10) ∧
     atVal idHash (insert idHash (emptyHM : HM Nat Nat) (1, 10)) 1 = some 10) :=
  ⟨Reachable.insert (1, 10) Reachable.empty, by decide,
   C2_insert_present idHash (Reachable.insert (1, 10) Reachable.empty) (by decide) 20⟩

/-- C3: erasing a present key makes find return the end sentinel, decreases
size() by exactly one, keeps all other entries with their values in their
relative iteration order, and re-inserting the key afterwards succeeds and
appends it at the end of the iteration order as if it were new. -/
theorem C3_erase_roundtrip {K V : Type} [DecidableEq K] (h : K → Nat) {m : HM K V}
    (hR : Reachable h m) {k : K} {v : V} (hmem : (k, v) ∈ toPairs m) (w : V) :
    find h (eraseKey h m k) k = none ∧
    size (eraseKey h m k) + 1 = size m ∧
    toPairs (eraseKey h m k) = (toPairs m).filter (fun p => p.1 ≠ k) ∧
    toPairs (insert h (eraseKey h m k) (k, w)) = toPairs (eraseKey h m k) ++ [(k, w)] ∧
    size (insert h (eraseKey h m k) (k, w)) = size (eraseKey h m k) + 1 ∧
    atVal h (insert h (eraseKey h m k) (k, w)) k = some w := by
  have hI := reachable_inv hR
  obtain ⟨e, hemem, heq⟩ := List.mem_map.mp hmem
  have hk : e.key = k := congrArg Prod.fst heq
  have hek : eraseKey h m k = eraseById m e.id := by
    rw [← hk]
    exact eraseKey_present hI hemem
  obtain ⟨hI', hp', hs', _, _⟩ := eraseByIdSpec hI hemem
  rw [hek]
  have habs : ∀ e' ∈ (eraseById m e.id).items, e'.key ≠ ((k, w) : K × V).1 := by
    intro e' he' hc
    have hpair : (e'.key, e'.value) ∈ toPairs (eraseById m e.id) := by
      rw [toPairs]
      exact List.mem_map_of_mem _ he'
    rw [hp'] at hpair
    have hne := (List.mem_filter.mp hpair).2
    simp only [ne_eq, decide_not, Bool.not_eq_true', decide_eq_false_iff_not] at hne
    rw [hk] at hne
    exact hne hc
  obtain ⟨hIf, hpf, hsf, _⟩ := insert_fresh hI' habs
  refine ⟨find_eq_none habs, hs', ?_, hpf, hsf, ?_⟩
  · rw [hp', hk]
  · refine atVal_of_mem_pairs hIf.tinv ?_
    rw [hpf]
    exact List.mem_append_right _ (List.mem_singleton.mpr rfl)

/-- C3 witness: erase key 1 from the two-element map {1 ↦ 10, 2 ↦ 20} and
re-insert it with value 99. -/
theorem C3_witness :
    Reachable idHash (insert idHash (insert idHash (emptyHM : HM Nat Nat) (1, 10)) (2, 20)) ∧
    (1, 10) ∈ toPairs (insert idHash (insert idHash (emptyHM : HM Nat Nat) (1, 10)) (2, 20)) ∧
    (find idHash (eraseKey idHash (insert idHash (insert idHash (emptyHM : HM Nat Nat) (1, 10)) (2, 20)) 1) 1 = none ∧
     size (eraseKey idHash (insert idHash (insert idHash (emptyHM : HM Nat Nat) (1, 10)) (2, 20)) 1) + 1 =
       size (insert idHash (insert idHash (emptyHM : HM Nat Nat) (1, 10)) (2, 20)) ∧
     toPairs (eraseKey idHash (insert idHash (insert idHash (emptyHM : HM Nat Nat) (1, 10)) (2, 20)) 1) =
       (toPairs (insert idHash (insert idHash (emptyHM : HM Nat Nat) (1, 10)) (2, 20))).filter (fun p => p.1 ≠ 1) ∧
     toPairs (insert idHash (eraseKey idHash (insert idHash (insert idHash (emptyHM : HM Nat Nat) (1, 10)) (2, 20)) 1) (1, 99)) =
       toPairs (eraseKey idHash (insert idHash (insert idHash (emptyHM : HM Nat Nat) (1, 10)) (2, 20)) 1) ++ [(1, 99)] ∧
     size (insert idHash (eraseKey idHash (insert idHash (insert idHash (emptyHM : HM Nat Nat) (1, 10)) (2, 20)) 1) (1, 99)) =
       size (eraseKey idHash (insert idHash (insert idHash (emptyHM : HM Nat Nat) (1, 10)) (2, 20)) 1) + 1 ∧
     atVal idHash (insert idHash (eraseKey idHash (insert idHash (insert idHash (emptyHM : HM Nat Nat) (1, 10)) (2, 20)) 1) (1, 99)) 1 = some 99) :=
  by
  have hr : Reachable idHash (insert idHash (insert idHash (emptyHM : HM Nat Nat) (1, 10)) (2, 20)) :=
    Reachable.insert (2, 20) (Reachable.insert (1, 10) Reachable.empty)
  have hmem : ((1, 10) : Nat × Nat) ∈
      toPairs (insert idHash (insert idHash (emptyHM : HM Nat Nat) (1, 10)) (2, 20)) := by
    decide
  exact ⟨hr, hmem, C3_erase_roundtrip idHash hr hmem 99⟩

/-- C4: in every reachable state the order sequence and the probe table are
in bijection: every entry is referenced by the occupied slot recorded in
its id_in_table field, every occupied slot references exactly one entry,
entry identities are unique, and no two slots reference the same entry. -/
theorem C4_bijection {K V : Type} [DecidableEq K] (h : K → Nat) {m : HM K V}
    (hR : Reachable h m) :
    (∀ e ∈ m.items, e.idx < m.table.length ∧ slotAt m.table e.idx = some e.id) ∧
    (∀ j i, slotAt m.table j = some i → ∃ e ∈ m.items, e.id = i ∧ e.idx = j) ∧
    (∀ e1 ∈ m.items, ∀ e2 ∈ m.items, e1.id = e2.id → e1 = e2) ∧
    (∀ j1 j2 i, slotAt m.table j1 = some i → slotAt m.table j2 = some i → j1 = j2) := by
  have hT := (reachable_inv hR).tinv
  refine ⟨?_, hT.sound, ?_, ?_⟩
  · intro e he
    obtain ⟨h1, h2, _, _⟩ := hT.complete e he
    exact ⟨h1, h2⟩
  · intro e1 h1 e2 h2 hid
    exact eq_of_id_mem hT.idsNodup h1 h2 hid
  · intro j1 j2 i hs1 hs2
    obtain ⟨e1, hm1, hid1, hidx1⟩ := hT.sound j1 i hs1
    obtain ⟨e2, hm2, hid2, hidx2⟩ := hT.sound j2 i hs2
    have he12 : e1 = e2 := eq_of_id_mem hT.idsNodup hm1 hm2 (by rw [hid1, hid2])
    rw [← hidx1, ← hidx2, he12]

/-- C4 witness: the bijection at the singleton map {1 ↦ 10}. -/
theorem C4_witness :
    Reachable idHash (insert idHash (emptyHM : HM Nat Nat) (1, 10)) ∧
    ((∀ e ∈ (insert idHash (emptyHM : HM Nat Nat) (1, 10)).items,
        e.idx < (insert idHash (emptyHM : HM Nat Nat) (1, 10)).table.length ∧
        slotAt (insert idHash (emptyHM : HM Nat Nat) (1, 10)).table e.idx = some e.id) ∧
     (∀ j i, slotAt (insert idHash (emptyHM : HM Nat Nat) (1, 10)).table j = some i →
        ∃ e ∈ (insert idHash (emptyHM : HM Nat Nat) (1, 10)).items, e.id = i ∧ e.idx = j) ∧
     (∀ e1 ∈ (insert idHash (emptyHM : HM Nat Nat) (1, 10)).items,
        ∀ e2 ∈ (insert idHash (emptyHM : HM Nat Nat) (1, 10)).items, e1.id = e2.id → e1 = e2) ∧
     (∀ j1 j2 i, slotAt (insert idHash (emptyHM : HM Nat Nat) (1, 10)).table j1 = some i →
        slotAt (insert idHash (emptyHM : HM Nat Nat) (1, 10)).table j2 = some i → j1 = j2)) :=
  ⟨Reachable.insert (1, 10) Reachable.empty,
   C4_bijection idHash (Reachable.insert (1, 10) Reachable.empty)⟩

/-- The five insertions 0, 37, 74, 111, 4 (values 0) under the identity
hash: keys 0, 37, 74, 111 all have ideal slot 0 and pile up with
displacements 0, 1, 2, 3 in slots 0-3, then key 4 lands in its ideal slot 4
with displacement 0. -/
def c5State : HM Nat Nat :=
  insert idHash (insert idHash (insert idHash (insert idHash
    (insert idHash emptyHM (0, 0)) (37, 0)) (74, 0)) (111, 0)) (4, 0)

/-- C5 (counterexample): the displacement values met when probing forward
from slot 0 = hash(0) mod 37 are [0, 1, 2, 3, 0] — the occupied slot 4
holds displacement 0 right after displacement 3 and before any empty slot
is reached, so the claimed non-decreasing (Robin Hood balance) property is
false in this reachable state. -/
theorem C5_counterexample :
    Reachable idHash c5State ∧
    c5State.table.length = 37 ∧
    probeDists c5State.items c5State.table (idHash 0 % 37) 37 = [0, 1, 2, 3, 0] ∧
    ¬ List.Chain' (· ≤ ·) (probeDists c5State.items c5State.table (idHash 0 % 37) 37) := by
  have hd : probeDists c5State.items c5State.table (idHash 0 % 37) 37 = [0, 1, 2, 3, 0] := by
    decide
  refine ⟨?_, by decide, hd, ?_⟩
  · exact Reachable.insert (4, 0) (Reachable.insert (111, 0) (Reachable.insert (74, 0)
      (Reachable.insert (37, 0) (Reachable.insert (0, 0) Reachable.empty))))
  · rw [hd]
    intro hch
    simp only [List.chain'_cons, List.chain'_singleton, and_true] at hch
    omega

/-- C5 (amended): the invariant this code actually maintains along probe
sequences is adjacency, not monotonicity: an occupied slot with positive
displacement is immediately preceded by an occupied slot whose displacement
is at most one smaller (so displacements can rise by at most one per step
but may drop arbitrarily), and an occupied slot immediately after an empty
slot has displacement 0. -/
theorem C5_adjacency {K V : Type} [DecidableEq K] (h : K → Nat) {m : HM K V}
    (hR : Reachable h m) :
    (∀ j, j < m.table.length → ∀ i, slotAt m.table ((j + 1) % m.table.length) = some i →
      0 < distOf m.items i →
      ∃ i2, slotAt m.table j = some i2 ∧ distOf m.items i ≤ distOf m.items i2 + 1) ∧
    (∀ j, j < m.table.length → slotAt m.table j = none →
      ∀ i, slotAt m.table ((j + 1) % m.table.length) = some i → distOf m.items i = 0) := by
  have hT := (reachable_inv hR).tinv
  refine ⟨hT.adj, ?_⟩
  intro j hj hnone i hsome
  by_contra hpos
  obtain ⟨i2, hsl, _⟩ := hT.adj j hj i hsome (by omega)
  rw [hnone] at hsl
  exact Option.noConfusion hsl

/-- C5 (amended) witness: the adjacency invariant at the c5State map whose
probe displacements are [0, 1, 2, 3, 0]. -/
theorem C5_adjacency_witness :
    Reachable idHash c5State ∧
    ((∀ j, j < c5State.table.length → ∀ i,
        slotAt c5State.table ((j + 1) % c5State.table.length) = some i →
        0 < distOf c5State.items i →
        ∃ i2, slotAt c5State.table j = some i2 ∧
          distOf c5State.items i ≤ distOf c5State.items i2 + 1) ∧
     (∀ j, j < c5State.table.length → slotAt c5State.table j = none →
        ∀ i, slotAt c5State.table ((j + 1) % c5State.table.length) = some i →
          distOf c5State.items i = 0)) := by
  have hr : Reachable idHash c5State :=
    Reachable.insert (4, 0) (Reachable.insert (111, 0) (Reachable.insert (74, 0)
      (Reachable.insert (37, 0) (Reachable.insert (0, 0) Reachable.empty))))
  exact ⟨hr, C5_adjacency idHash hr⟩

end HashMapModel

namespace HashMapModel

/-- C6: the growth policy of rehash_if_needed.  The initial table has 37
slots; inserting a fresh key changes the table size exactly when the
comparison (size()+1)/table_size < MAX_LOAD_FACTOR fails, where the float
constant 0.6f is exactly 5033165/8388608; the new table size is then the
smallest prime ≥ 2 × the current size; and the insert (rehash included)
reinserts every held pair through the normal insert path preserving the
original iteration order, with the new key appended at the end. -/
theorem C6_growth_policy {K V : Type} [DecidableEq K] (h : K → Nat) {m : HM K V}
    (hR : Reachable h m) (x : K × V) (hfr : ∀ e ∈ m.items, e.key ≠ x.1) :
    (emptyHM : HM K V).table.length = 37 ∧
    ((insert h m x).table.length ≠ m.table.length ↔
      5033165 * m.table.length ≤ 8388608 * (size m + 1)) ∧
    (5033165 * m.table.length ≤ 8388608 * (size m + 1) →
      (insert h m x).table.length = findPrime (2 * m.table.length) ∧
      Nat.Prime ((insert h m x).table.length) ∧
      2 * m.table.length ≤ (insert h m x).table.length ∧
      (∀ q, Nat.Prime q → 2 * m.table.length ≤ q → (insert h m x).table.length ≤ q)) ∧
    (8388608 * (size m + 1) < 5033165 * m.table.length →
      (insert h m x).table.length = m.table.length) ∧
    toPairs (insert h m x) = toPairs m ++ [x] := by
  have hI := reachable_inv hR
  obtain ⟨hI', hp', hs', hl'⟩ := insert_fresh hI hfr
  have hL37 := hI.lenStart
  have h37 : (emptyHM : HM K V).table.length = 37 := by
    show (List.replicate 37 (none : Option Nat)).length = 37
    rw [List.length_replicate]
  simp only [size]
  by_cases hc : 8388608 * (m.items.length + 1) < 5033165 * m.table.length
  · rw [if_pos hc] at hl'
    refine ⟨h37, ?_, ?_, ?_, hp'⟩
    · constructor
      · intro hne
        exact absurd hl' hne
      · intro htrig
        exact absurd htrig (by omega)
    · intro htrig
      exact absurd htrig (by omega)
    · intro _
      exact hl'
  · rw [if_neg hc] at hl'
    have hge := findPrime_ge (2 * m.table.length)
    refine ⟨h37, ?_, ?_, ?_, hp'⟩
    · constructor
      · intro _
        omega
      · intro _
        rw [hl']
        omega
    · intro _
      obtain ⟨hpr, hge2, hmin⟩ := findPrime_least (show 2 ≤ 2 * m.table.length by omega)
      rw [hl']
      exact ⟨rfl, hpr, hge2, hmin⟩
    · intro hlt
      exact absurd hlt hc

/-- C6 witness: the 23rd insertion (into the 22-element map holding keys
0..21) triggers the first rehash, growing the 37-slot table to 79 slots. -/
theorem C6_witness :
    Reachable idHash (insertRange 22) ∧
    (∀ e ∈ (insertRange 22).items, e.key ≠ ((22, 0) : Nat × Nat).1) ∧
    ((emptyHM : HM Nat Nat).table.length = 37 ∧
     ((insert idHash (insertRange 22) (22, 0)).table.length ≠ (insertRange 22).table.length ↔
       5033165 * (insertRange 22).table.length ≤ 8388608 * (size (insertRange 22) + 1)) ∧
     (5033165 * (insertRange 22).table.length ≤ 8388608 * (size (insertRange 22) + 1) →
       (insert idHash (insertRange 22) (22, 0)).table.length =
         findPrime (2 * (insertRange 22).table.length) ∧
       Nat.Prime ((insert idHash (insertRange 22) (22, 0)).table.length) ∧
       2 * (insertRange 22).table.length ≤ (insert idHash (insertRange 22) (22, 0)).table.length ∧
       (∀ q, Nat.Prime q → 2 * (insertRange 22).table.length ≤ q →
         (insert idHash (insertRange 22) (22, 0)).table.length ≤ q)) ∧
     (8388608 * (size (insertRange 22) + 1) < 5033165 * (insertRange 22).table.length →
       (insert idHash (insertRange 22) (22, 0)).table.length = (insertRange 22).table.length) ∧
     toPairs (insert idHash (insertRange 22) (22, 0)) = toPairs (insertRange 22) ++ [(22, 0)]) := by
  have hfr : ∀ e ∈ (insertRange 22).items, e.key ≠ ((22, 0) : Nat × Nat).1 := by
    decide
  exact ⟨insertRange_reachable 22, hfr,
    C6_growth_policy idHash (insertRange_reachable 22) (22, 0) hfr⟩

/-- C7 (amended): immediately after every insertion the load factor is
strictly below the float constant the code actually compares against,
0.6f = 5033165/8388608 (slightly above 3/5): in exact arithmetic,
8388608 · size() < 5033165 · table_size. -/
theorem C7_load_factor {K V : Type} [DecidableEq K] (h : K → Nat) {m : HM K V}
    (hR : Reachable h m) (x : K × V) :
    8388608 * size (insert h m x) < 5033165 * (insert h m x).table.length :=
  (reachable_inv (Reachable.insert x hR)).cap

/-- C7 (amended) witness: the bound after inserting (5, 7) into the fresh
empty map. -/
theorem C7_witness :
    Reachable idHash (emptyHM : HM Nat Nat) ∧
    8388608 * size (insert idHash (emptyHM : HM Nat Nat) (5, 7)) <
      5033165 * (insert idHash (emptyHM : HM Nat Nat) (5, 7)).table.length :=
  ⟨Reachable.empty, C7_load_factor idHash Reachable.empty (5, 7)⟩

/-- C7 (counterexample): the load factor is NOT kept strictly below the
exact rational 3/5.  The state reached by 13475203 insertions of the
distinct keys 0..13475202 — the last insertion of which grew the table to
22458671 slots — satisfies 3 · table_size ≤ 5 · size(), i.e. load factor
13475203/22458671 ≥ 3/5, while still passing the code's float comparison
(8388608 · size < 5033165 · table_size). -/
theorem C7_counterexample :
    Reachable idHash (insertRange 13475203) ∧
    insertRange 13475203 = insert idHash (insertRange 13475202) (13475202, 0) ∧
    size (insertRange 13475203) = 13475203 ∧
    (insertRange 13475203).table.length = 22458671 ∧
    3 * (insertRange 13475203).table.length ≤ 5 * size (insertRange 13475203) := by
  obtain ⟨_, _, hs, hl⟩ := insertRange_spec 13475203
  have hlen : (insertRange 13475203).table.length = 22458671 := by
    rw [hl, lenAfter_final]
  have hsucc : (13475203 : Nat) = 13475202 + 1 := by norm_num
  have hunf : insertRange 13475203 = insert idHash (insertRange 13475202) (13475202, 0) := by
    rw [hsucc, insertRange]
  have hsz : size (insertRange 13475203) = 13475203 := hs
  refine ⟨insertRange_reachable 13475203, hunf, hsz, hlen, ?_⟩
  rw [hlen, hsz]
  norm_num

/-- C8: at(k) on an absent key signals out-of-range (the none result) while
the map — at being a const member, modelled as the pure function atVal — is
unchanged; find(k) returns the end sentinel and erase(k) is a silent no-op
returning the state unchanged; on a present key at(k) returns the stored
value. -/
theorem C8_absent_key {K V : Type} [DecidableEq K] (h : K → Nat) {m : HM K V}
    (hR : Reachable h m) (k : K) :
    ((∀ e ∈ m.items, e.key ≠ k) →
      atVal h m k = none ∧ find h m k = none ∧ eraseKey h m k = m) ∧
    (∀ v, (k, v) ∈ toPairs m → atVal h m k = some v) := by
  have hI := reachable_inv hR
  refine ⟨?_, ?_⟩
  · intro habs
    exact ⟨atVal_absent habs, find_eq_none habs, eraseKey_absent habs⟩
  · intro v hmem
    exact atVal_of_mem_pairs hI.tinv hmem

/-- C8 witness: in the singleton map {1 ↦ 10}, key 2 is absent (at fails,
find returns the sentinel, erase is a no-op) and key 1 is present. -/
theorem C8_witness :
    Reachable idHash (insert idHash (emptyHM : HM Nat Nat) (1, 10)) ∧
    (∀ e ∈ (insert idHash (emptyHM : HM Nat Nat) (1, 10)).items, e.key ≠ 2) ∧
    (atVal idHash (insert idHash (emptyHM : HM Nat Nat) (1, 10)) 2 = none ∧
     find idHash (insert idHash (emptyHM : HM Nat Nat) (1, 10)) 2 = none ∧
     eraseKey idHash (insert idHash (emptyHM : HM Nat Nat) (1, 10)) 2 =
       insert idHash (emptyHM : HM Nat Nat) (1, 10)) ∧
    atVal idHash (insert idHash (emptyHM : HM Nat Nat) (1, 10)) 1 = some 10 := by
  have hr : Reachable idHash (insert idHash (emptyHM : HM Nat Nat) (1, 10)) :=
    Reachable.insert (1, 10) Reachable.empty
  have habs : ∀ e ∈ (insert idHash (emptyHM : HM Nat Nat) (1, 10)).items, e.key ≠ 2 := by
    decide
  have hmem : ((1, 10) : Nat × Nat) ∈
      toPairs (insert idHash (emptyHM : HM Nat Nat) (1, 10)) := by
    decide
  exact ⟨hr, habs, (C8_absent_key idHash hr 2).1 habs, (C8_absent_key idHash hr 1).2 10 hmem⟩

/-- C9: operator[] on an absent key inserts the key with the
default-constructed value, increments size() by one, appends the key at
the end of the iteration order and returns the stored default; writing a
new value through the returned reference (setValue) is visible to
subsequent find and at.  On a present key it returns the existing value
and leaves the map unchanged. -/
theorem C9_bracket {K V : Type} [DecidableEq K] [Inhabited V] (h : K → Nat)
    {m : HM K V} (hR : Reachable h m) (k : K) :
    ((∀ e ∈ m.items, e.key ≠ k) →
      (getBracket h m k).2 = insert h m (k, default) ∧
      (getBracket h m k).1 = default ∧
      size (getBracket h m k).2 = size m + 1 ∧
      toPairs (getBracket h m k).2 = toPairs m ++ [(k, default)] ∧
      ∀ w, atVal h (setValue (getBracket h m k).2 k w) k = some w ∧
        find h (setValue (getBracket h m k).2 k w) k ≠ none) ∧
    (∀ v, (k, v) ∈ toPairs m → (getBracket h m k).1 = v ∧ (getBracket h m k).2 = m) := by
  have hI := reachable_inv hR
  constructor
  · intro habs
    have habs' : ∀ e ∈ m.items, e.key ≠ ((k, (default : V)) : K × V).1 := habs
    obtain ⟨hI', hp', hs', _⟩ := insert_fresh hI habs'
    have h2 : (getBracket h m k).2 = insert h m (k, default) := rfl
    have hmemd : (k, (default : V)) ∈ toPairs (insert h m (k, default)) := by
      rw [hp']
      exact List.mem_append_right _ (List.mem_singleton.mpr rfl)
    have hat : atVal h (insert h m (k, default)) k = some default :=
      atVal_of_mem_pairs hI'.tinv hmemd
    have h1 : (getBracket h m k).1 = default := by
      show (atVal h (insert h m (k, default)) k).getD default = default
      rw [hat]
      rfl
    refine ⟨h2, h1, ?_, ?_, ?_⟩
    · rw [h2]
      exact hs'
    · rw [h2]
      exact hp'
    · intro w
      obtain ⟨hIs, _, _⟩ := setValueSpec hI' k w
      have hmw : (k, w) ∈ toPairs (setValue (insert h m (k, default)) k w) :=
        mem_pairs_setValue w hmemd
      have hatw : atVal h (setValue (insert h m (k, default)) k w) k = some w :=
        atVal_of_mem_pairs hIs.tinv hmw
      rw [h2]
      refine ⟨hatw, ?_⟩
      intro hfn
      rw [atVal, hfn] at hatw
      exact Option.noConfusion hatw
  · intro v hmem
    obtain ⟨e, hemem, heq⟩ := List.mem_map.mp hmem
    have hk : e.key = k := congrArg Prod.fst heq
    have hv : e.value = v := congrArg Prod.snd heq
    have hdup : insert h m (k, default) = m := insert_dup hI hemem hk
    have h2 : (getBracket h m k).2 = m := hdup
    refine ⟨?_, h2⟩
    show (atVal h (insert h m (k, default)) k).getD default = v
    rw [hdup, ← hk, atVal_present hI.tinv hemem, hv]
    rfl

/-- C9 witness: operator[] at absent key 2 and present key 1 in the
singleton map {1 ↦ 10}, with the write of 77 through the returned
reference. -/
theorem C9_witness :
    Reachable idHash (insert idHash (emptyHM : HM Nat Nat) (1, 10)) ∧
    (∀ e ∈ (insert idHash (emptyHM : HM Nat Nat) (1, 10)).items, e.key ≠ 2) ∧
    ((getBracket idHash (insert idHash (emptyHM : HM Nat Nat) (1, 10)) 2).2 =
       insert idHash (insert idHash (emptyHM : HM Nat Nat) (1, 10)) (2, default) ∧
     (getBracket idHash (insert idHash (emptyHM : HM Nat Nat) (1, 10)) 2).1 = default ∧
     size (getBracket idHash (insert idHash (emptyHM : HM Nat Nat) (1, 10)) 2).2 =
       size (insert idHash (emptyHM : HM Nat Nat) (1, 10)) + 1 ∧
     toPairs (getBracket idHash (insert idHash (emptyHM : HM Nat Nat) (1, 10)) 2).2 =
       toPairs (insert idHash (emptyHM : HM Nat Nat) (1, 10)) ++ [(2, default)] ∧
     ∀ w, atVal idHash
         (setValue (getBracket idHash (insert idHash (emptyHM : HM Nat Nat) (1, 10)) 2).2 2 w) 2 =
         some w ∧
       find idHash
         (setValue (getBracket idHash (insert idHash (emptyHM : HM Nat Nat) (1, 10)) 2).2 2 w) 2 ≠
         none) ∧
    ((getBracket idHash (insert idHash (emptyHM : HM Nat Nat) (1, 10)) 1).1 = 10 ∧
     (getBracket idHash (insert idHash (emptyHM : HM Nat Nat) (1, 10)) 1).2 =
       insert idHash (emptyHM : HM Nat Nat) (1, 10)) := by
  have hr : Reachable idHash (insert idHash (emptyHM : HM Nat Nat) (1, 10)) :=
    Reachable.insert (1, 10) Reachable.empty
  have habs : ∀ e ∈ (insert idHash (emptyHM : HM Nat Nat) (1, 10)).items, e.key ≠ 2 := by
    decide
  have hmem : ((1, 10) : Nat × Nat) ∈
      toPairs (insert idHash (emptyHM : HM Nat Nat) (1, 10)) := by
    decide
  exact ⟨hr, habs, (C9_bracket idHash hr 2).1 habs, (C9_bracket idHash hr 1).2 10 hmem⟩

/-- C10: copy construction and copy assignment (non-self branch) produce a
map holding exactly the source's (key, value) pairs in the source's
iteration order, with a probe table sized to the source's table size; the
copy is independent — writing a value in the copy leaves the source, a
distinct untouched state, returning its original value; self-assignment
(the guarded branch) returns the map unchanged. -/
theorem C10_copy {K V : Type} [DecidableEq K] (h : K → Nat) {src : HM K V}
    (hR : Reachable h src) (dst : HM K V) :
    toPairs (copyFrom h src) = toPairs src ∧
    (copyFrom h src).table.length = src.table.length ∧
    toPairs (copyAssign h dst src false) = toPairs src ∧
    (copyAssign h dst src false).table.length = src.table.length ∧
    copyAssign h dst src true = dst ∧
    (∀ k v w, (k, v) ∈ toPairs src →
      atVal h (setValue (copyFrom h src) k w) k = some w ∧
      atVal h src k = some v) := by
  have hI := reachable_inv hR
  obtain ⟨hIc, hpc, hlc, _⟩ := copyFromSpec hI
  obtain ⟨hIa, hpa, hla, _⟩ := copyAssignSpec dst hI
  refine ⟨hpc, hlc, hpa, hla, copyAssign_same dst src, ?_⟩
  intro k v w hmem
  have hmemc : (k, v) ∈ toPairs (copyFrom h src) := by
    rw [hpc]
    exact hmem
  obtain ⟨hIs, _, _⟩ := setValueSpec hIc k w
  exact ⟨atVal_of_mem_pairs hIs.tinv (mem_pairs_setValue w hmemc),
    atVal_of_mem_pairs hI.tinv hmem⟩

/-- C10 witness: copying the singleton map {1 ↦ 10} (with destination the
fresh empty map for the assignment case) and overwriting the copy's value
with 55. -/
theorem C10_witness :
    Reachable idHash (insert idHash (emptyHM : HM Nat Nat) (1, 10)) ∧
    ((1, 10) : Nat × Nat) ∈ toPairs (insert idHash (emptyHM : HM Nat Nat) (1, 10)) ∧
    (toPairs (copyFrom idHash (insert idHash (emptyHM : HM Nat Nat) (1, 10))) =
       toPairs (insert idHash (emptyHM : HM Nat Nat) (1, 10)) ∧
     (copyFrom idHash (insert idHash (emptyHM : HM Nat Nat) (1, 10))).table.length =
       (insert idHash (emptyHM : HM Nat Nat) (1, 10)).table.length ∧
     toPairs (copyAssign idHash emptyHM (insert idHash (emptyHM : HM Nat Nat) (1, 10)) false) =
       toPairs (insert idHash (emptyHM : HM Nat Nat) (1, 10)) ∧
     (copyAssign idHash emptyHM (insert idHash (emptyHM : HM Nat Nat) (1, 10)) false).table.length =
       (insert idHash (emptyHM : HM Nat Nat) (1, 10)).table.length ∧
     copyAssign idHash emptyHM (insert idHash (emptyHM : HM Nat Nat) (1, 10)) true = emptyHM ∧
     (∀ k v w, (k, v) ∈ toPairs (insert idHash (emptyHM : HM Nat Nat) (1, 10)) →
       atVal idHash (setValue (copyFrom idHash (insert idHash (emptyHM : HM Nat Nat) (1, 10))) k w) k =
         some w ∧
       atVal idHash (insert idHash (emptyHM : HM Nat Nat) (1, 10)) k = some v)) := by
  have hr : Reachable idHash (insert idHash (emptyHM : HM Nat Nat) (1, 10)) :=
    Reachable.insert (1, 10) Reachable.empty
  have hmem : ((1, 10) : Nat × Nat) ∈
      toPairs (insert idHash (emptyHM : HM Nat Nat) (1, 10)) := by
    decide
  exact ⟨hr, hmem, C10_copy idHash hr emptyHM⟩

end HashMapModel
